import Mathlib

/-!
# Command-line character filter (`filter.c`): embedding and verified properties

The development embeds the character pipeline of `src/filter.c` in Lean and
proves properties of it.

Modelling conventions.

* A byte of a stream is a `Byte = Fin 256`.
* A C `char` is an `Int` in `[-128, 127]` (plain `char` signed, 8 bits, as on
  x86-64 with gcc or clang); storing an `int` into a `char` keeps the low
  eight bits (`toChar`).  `EOF` is `-1`.
* A C string (`char *` argument of an option) is the list of its characters
  before the terminating NUL; `cstr s i` reads `s[i]`.
* Standard output is the list of the output calls made so far (`Write`);
  `bytes` is what those calls put on the stream.
* `line_count` is a C `int`; signed overflow is undefined in C, so the counter
  is a `Nat` and the model covers runs of fewer than `2^31` numbered lines.
* The read loop is given twice: `filterLoop`, by recursion on the bytes not yet
  read, and `whileLoop`, statement by statement on a stream with its
  end-of-file indicator; `whileLoop_eq_filterLoop` relates the two.
* `getopt_long` belongs to the C library: `main` is given what its successive
  calls return.
-/

namespace Filter

/-! ## Characters, strings and the output stream -/

/-- One byte of a file or of standard output. -/
abbrev Byte := Fin 256

/-- Value of the macro `EOF` of `<stdio.h>`. -/
def EOF : Int := -1

/-- Conversion of an `int` to (signed, 8-bit) `char`: the low eight bits, read
in two's complement. -/
def toChar (v : Int) : Int := (v + 128) % 256 - 128

/-- Conversion of an `int` to `unsigned char`, as done by `putc`/`fputc` before
the byte is written. -/
def toUChar (v : Int) : Byte := Fin.ofNat (v % 256).toNat

/-- Character `s[i]` of a C string: the `i`-th character, or the terminating
NUL at `i = s.length`.  (Reading further is outside the string; the model
gives `0` there as well.) -/
def cstr (s : List Int) (i : Nat) : Int := s.getD i 0

/-- One output call on `stdout`. -/
inductive Write where
  /-- Call `printf("%6i", n)`. -/
  | printf_6i (n : Nat)
  /-- Call `printf("  ")`. -/
  | printf_2sp
  /-- Call `putc(c, stdout)` or `fputc(c, stdout)`. -/
  | putc (c : Int)
  deriving DecidableEq, Repr

/-- ASCII decimal digits of a natural number. -/
def decimal (n : Nat) : List Byte :=
  (Nat.toDigits 10 n).map fun d => Fin.ofNat d.toNat

/-- Bytes produced by `printf("%6i", n)` for `n ≥ 0`: the decimal digits,
padded on the left with spaces to a minimum width of six. -/
def fmt6i (n : Nat) : List Byte :=
  List.replicate (6 - (decimal n).length) 32 ++ decimal n

/-- Bytes put on the stream by one output call. -/
def Write.bytes : Write → List Byte
  | .printf_6i n => fmt6i n
  | .printf_2sp => [32, 32]
  | .putc c => [toUChar c]

/-- Bytes put on the stream by a sequence of output calls. -/
def bytes (ws : List Write) : List Byte := ws.flatMap Write.bytes

/-! ## C library functions used by the program ("C" locale) -/

/-- C library `isspace` in the "C" locale. -/
def isspace (c : Int) : Bool := c == 32 || (9 ≤ c && c ≤ 13)

/-- C library `toupper` in the "C" locale (the program never calls
`setlocale`): lower-case ASCII letters are mapped to upper case, every other
value is returned unchanged.  (For a negative argument other than `EOF` the
C standard leaves the result open; glibc returns the argument, as here.) -/
def toupper (c : Int) : Int := if 97 ≤ c ∧ c ≤ 122 then c - 97 + 65 else c

/-- C library `tolower` in the "C" locale. -/
def tolower (c : Int) : Int := if 65 ≤ c ∧ c ≤ 90 then c - 65 + 97 else c

/-- Digit loop of `atoi`: accumulates leading decimal digits. -/
def atoiDigits : Int → List Int → Int
  | acc, [] => acc
  | acc, c :: s => if 48 ≤ c ∧ c ≤ 57 then atoiDigits (acc * 10 + (c - 48)) s else acc

/-- C library `atoi`: skips white space, reads an optional sign and the leading
decimal digits; no digits gives `0`.  (A value outside `int` is undefined in
C; the model keeps the mathematical value.) -/
def atoi (s : List Int) : Int :=
  match s.dropWhile isspace with
  | 45 :: r => - atoiDigits 0 r
  | 43 :: r => atoiDigits 0 r
  | r => atoiDigits 0 r

/-! ## Program state -/

/-- The bit-field `REQ_OPTIONS` together with the option arguments
`delete_args`, `replace_args` and `tabs_args` (`none` is the null pointer). -/
structure Options where
  help : Bool := false
  blank_lines : Bool := false
  delete : Bool := false
  replace : Bool := false
  lower : Bool := false
  upper : Bool := false
  line_numbers : Bool := false
  tabs : Bool := false
  delete_args : List Int := []
  replace_args : List Int := []
  tabs_args : Option (List Int) := none
  deriving DecidableEq, Repr

/-- State that outlives one call of `filter`: the static `line_count` of
`countLinesAlpha`, the global `begin_of_file`, and standard output. -/
structure Globals where
  line_count : Nat := 0
  begin_of_file : Bool := false
  stdout : List Write := []
  deriving DecidableEq, Repr

/-! ## The filter stages -/

/-- Source `toLowerAlpha`. -/
def toLowerAlpha (c : Int) : Int :=
  if c ≥ 65 ∨ c ≤ 90 then toChar (tolower c) else c

/-- Source `toUpperAlpha`. -/
def toUpperAlpha (c : Int) : Int :=
  if c ≥ 97 ∨ c ≤ 122 then toChar (toupper c) else c

/-- Source `removeBlankLinesAlpha`. -/
def removeBlankLinesAlpha (c prev : Int) : Int :=
  if c = 10 ∧ prev = 10 then 0 else c

/-- Source `deleteAlpha`. -/
def deleteAlpha (c : Int) (letter : List Int) : Int :=
  if c ≠ cstr letter 0 then c else 0

/-- Source `replaceAlpha`. -/
def replaceAlpha (c : Int) (letter : List Int) : Int :=
  if c = cstr letter 0 then cstr letter 1 else c

/-- Source `countLinesAlpha`. -/
def countLinesAlpha (c prev : Int) (g : Globals) : Int × Globals :=
  if c ≠ 0 ∧ (g.line_count = 0 ∨ prev = 10 ∨ g.begin_of_file = true) then
    (c, { line_count := g.line_count + 1
          begin_of_file := false
          stdout := g.stdout ++ [Write.printf_6i (g.line_count + 1), Write.printf_2sp] })
  else
    (c, g)

/-- Value of `num_spaces` in `expandTabsAlpha`. -/
def numSpaces (spaces : Option (List Int)) : Int :=
  match spaces with
  | none => 8
  | some s => atoi s

/-- Source `expandTabsAlpha`; the `for` loop writes one space per `pc` in
`0 .. num_spaces - 1`. -/
def expandTabsAlpha (c : Int) (spaces : Option (List Int)) (g : Globals) : Int × Globals :=
  if c = 9 then
    (0, { g with stdout := g.stdout ++ List.replicate (numSpaces spaces).toNat (Write.putc 32) })
  else
    (c, g)

/-! ## The read loop -/

/-- Lines 374-415 of `filter`: the stages applied to `reader`, in source
order.  Returns the resulting `reader`, the (possibly reset) `previous`, and
the globals. -/
def stages (o : Options) (reader previous : Int) (g : Globals) : Int × Int × Globals :=
  let reader := if o.delete then deleteAlpha reader o.delete_args else reader
  let reader := if o.replace then replaceAlpha reader o.replace_args else reader
  let reader := if o.upper then toUpperAlpha reader else reader
  let reader := if o.lower then toLowerAlpha reader else reader
  let rg := if o.line_numbers then countLinesAlpha reader previous g else (reader, g)
  let reader := rg.1
  let g := rg.2
  let reader := if o.blank_lines then removeBlankLinesAlpha reader previous else reader
  if o.tabs then
    let rg := expandTabsAlpha reader o.tabs_args g
    (rg.1, if rg.1 = 0 then 0 else previous, rg.2)
  else
    (reader, previous, g)

/-- Lines 417-425 of `filter`: a `reader` other than `0` is written and becomes
`previous`. -/
def emit (reader previous : Int) (g : Globals) : Int × Globals :=
  if reader ≠ 0 then
    (reader, { g with stdout := g.stdout ++ [Write.putc reader] })
  else
    (previous, g)

/-- One pass through the body of the `while` loop up to (not including) the
next `fgetc`: returns the new `previous` and the globals. -/
def iteration (o : Options) (reader previous : Int) (g : Globals) : Int × Globals :=
  let s := stages o reader previous g
  emit s.1 s.2.1 s.2.2

/-- The `while (!feof(fp))` loop of `filter`, entered with the current
`reader` and `previous` and the bytes of the stream not yet read.  Each pass
breaks when `reader == EOF`, otherwise runs the body and then `fgetc`: on an
exhausted stream `fgetc` sets the end-of-file indicator and the loop ends, on
a byte `b` the loop goes on with `reader = (char) b`. -/
def filterLoop (o : Options) : Int → Int → Globals → List Byte → Globals
  | reader, previous, g, [] =>
      if reader = EOF then g else (iteration o reader previous g).2
  | reader, previous, g, b :: rest =>
      if reader = EOF then g
      else
        let pg := iteration o reader previous g
        filterLoop o (toChar (b.val : Int)) pg.1 pg.2 rest

/-- Source `filter`, on the stream it ends up reading (the named file, or
standard input when `fopen` fails), given by its bytes. -/
def filter (o : Options) (g : Globals) (file : List Byte) : Globals :=
  let reader : Int := 0
  let previous : Int := 0
  let g := { g with begin_of_file := true }
  let rg := if o.line_numbers then countLinesAlpha reader previous g else (reader, g)
  filterLoop o rg.1 previous rg.2 file

/-- The `do ... while` loop of `main` that calls `filter` once per stream. -/
def filterAll (o : Options) (g : Globals) (files : List (List Byte)) : Globals :=
  files.foldl (filter o) g

/-- Bytes written by one run of `filter` on `file`, started with a fresh
counter and an empty standard output. -/
def output (o : Options) (file : List Byte) : List Byte :=
  bytes (filter o {} file).stdout

/-! ## The input stream, statement by statement -/

/-- An input stream (`FILE *`) as far as `filter` uses it: the bytes not yet
read and the end-of-file indicator. -/
structure FILE where
  unread : List Byte
  eof : Bool := false
  deriving DecidableEq, Repr

/-- C library `fgetc`: the next byte as an `int` in `0 .. 255`, or `EOF` with
the end-of-file indicator set when no byte is left. -/
def fgetc (fp : FILE) : Int × FILE :=
  match fp.unread with
  | [] => (EOF, { fp with eof := true })
  | b :: rest => ((b.val : Int), { fp with unread := rest })

/-- C library `feof`: the end-of-file indicator. -/
def feof (fp : FILE) : Bool := fp.eof

/-- The `while` loop of `filter` (lines 363-429), statement by statement;
`fuel` bounds the number of times the loop condition is evaluated. -/
def whileLoop (o : Options) : Nat → Int → Int → Globals → FILE → Option Globals
  | 0, _, _, _, _ => none
  | fuel + 1, reader, previous, g, fp =>
      if feof fp then some g
      else if reader = EOF then some g
      else
        let pg := iteration o reader previous g
        let rf := fgetc fp
        whileLoop o fuel (toChar rf.1) pg.1 pg.2 rf.2

/-- Source `filter` with the read loop taken statement by statement, on the
stream `fp` that `fopen` returned (or standard input). -/
def filterOn (o : Options) (fuel : Nat) (g : Globals) (fp : FILE) : Option Globals :=
  let reader : Int := 0
  let previous : Int := 0
  let g := { g with begin_of_file := true }
  let rg := if o.line_numbers then countLinesAlpha reader previous g else (reader, g)
  whileLoop o fuel rg.1 previous rg.2 fp

/-! ## Option parsing and `main` -/

/-- Bytes of a string constant of the source (all of them ASCII). -/
def ascii (s : String) : List Byte := s.toList.map fun ch => Fin.ofNat ch.toNat

/-- The array `string` of `dumpHelp`. -/
def helpStrings : List (List Byte) :=
  [ascii "Usage: filter [options] [file1 file2 ...] \n",
   ascii "Options:",
   ascii " -b  --remove-blank-lines  removes empty lines.",
   ascii " -d  --delete=X            deletes all occurrences of char X.",
   ascii " -h  --help                display this information.",
   ascii " -l  --tolower             convert all characters to lower case.",
   ascii " -n  --line-numbers        prepend line numbers to each line.",
   ascii " -r  --replace=XY          replace all char X with char Y.",
   ascii " -u  --toupper             convert all characters to upper case.",
   ascii " -x  --expand-tabs[=X]     convert tabs to X spaces (default is 8).\n"]

/-- Source `dumpHelp`: `printf("%s\n", string[line_num])` for every entry of
the array, in order; the value is what is written to standard output. -/
def dumpHelp : List Byte := helpStrings.flatMap fun s => s ++ [10]

/-- What one call of the C library `getopt_long` hands to `main`: the return
value `key` and the globals `optarg` (`none` is the null pointer) and
`optopt`. -/
structure Getopt where
  key : Int
  optarg : Option (List Int) := none
  optopt : Int := 0
  deriving DecidableEq, Repr

/-- How the option loop of `main` ends: with the options parsed, or with a
`return` from inside the loop after some output. -/
inductive Parsed where
  /-- The loop ran until `getopt_long` returned `-1`. -/
  | options (o : Options)
  /-- A `return status` inside the loop, with what was written before. -/
  | returned (stdout : List Byte) (status : Int)
  deriving DecidableEq, Repr

/-- The first `while` loop of `main` (lines 469-512), given the results of the
successive calls of `getopt_long`; once they are used up the next call returns
`-1`.  A required argument is never a null pointer. -/
def optionLoop (o : Options) : List Getopt → Parsed
  | [] => .options o
  | r :: rs =>
      if r.key = -1 then .options o
      else if r.key = 104 then .returned dumpHelp 0
      else if r.key = 98 then optionLoop { o with blank_lines := true } rs
      else if r.key = 100 then
        optionLoop { o with delete := true, delete_args := r.optarg.getD [] } rs
      else if r.key = 108 then optionLoop { o with lower := true } rs
      else if r.key = 117 then optionLoop { o with upper := true } rs
      else if r.key = 114 then
        optionLoop { o with replace := true, replace_args := r.optarg.getD [] } rs
      else if r.key = 110 then optionLoop { o with line_numbers := true } rs
      else if r.key = 120 then optionLoop { o with tabs := true, tabs_args := r.optarg } rs
      else if r.key = 63 then
        .returned (ascii "Unknown option: " ++ [toUChar r.optopt] ++ [10]) 0
      else if r.key = 58 then
        .returned (ascii "Missing arg for " ++ [toUChar r.optopt] ++ [10]) 0
      else optionLoop o rs

/-- Source `main`, given the results of the calls of `getopt_long` in the
option loop and the streams that the calls of `filter` read (`stream` for the
first call, which always happens, `more` for the further ones): standard
output and the return value. -/
def main (calls : List Getopt) (stream : List Byte) (more : List (List Byte)) : List Byte × Int :=
  match optionLoop {} calls with
  | .returned stdout status => (stdout, status)
  | .options o => (bytes (filterAll o {} (stream :: more)).stdout, 0)

/-! ## Auxiliary definitions used in the statements and proofs -/

/-- Chars fed through the loop body one after the other. -/
def feed (o : Options) (pg : Int × Globals) (cs : List Int) : Int × Globals :=
  cs.foldl (fun pg c => iteration o c pg.1 pg.2) pg

/-- Chars that the read loop passes to the stages for a file: the bytes as
`char`s, up to the first one that compares equal to `EOF`. -/
def chars (file : List Byte) : List Int :=
  (file.map fun b => toChar (b.val : Int)).takeWhile (fun c => c ≠ EOF)

/-- The four stages that depend on the character alone (delete, replace,
to-upper, to-lower), in source order. -/
def pre (o : Options) (c : Int) : Int :=
  let c := if o.delete then deleteAlpha c o.delete_args else c
  let c := if o.replace then replaceAlpha c o.replace_args else c
  let c := if o.upper then toUpperAlpha c else c
  if o.lower then toLowerAlpha c else c

/-- Output calls caused by one character when neither line numbering nor
blank-line removal is enabled. -/
def charWrites (o : Options) (c : Int) : List Write :=
  if o.tabs = true ∧ pre o c = 9 then
    List.replicate (numSpaces o.tabs_args).toNat (Write.putc 32)
  else if pre o c ≠ 0 then [Write.putc (pre o c)] else []

/-- No filter stage is enabled. -/
def Options.noFilter (o : Options) : Prop :=
  o.delete = false ∧ o.replace = false ∧ o.upper = false ∧ o.lower = false ∧
    o.line_numbers = false ∧ o.blank_lines = false ∧ o.tabs = false

instance (o : Options) : Decidable o.noFilter := by
  unfold Options.noFilter
  infer_instance

/-- Lines of a text: each line runs up to and including its newline; what
follows the last newline, when not empty, is a last (unterminated) line. -/
def splitLines : List Byte → List (List Byte)
  | [] => []
  | b :: rest =>
      if b = 10 then [b] :: splitLines rest
      else
        match splitLines rest with
        | [] => [[b]]
        | l :: ls => (b :: l) :: ls

/-- The lines, each preceded by its number (counted from `n`) formatted by
`%6i` and by two spaces, concatenated. -/
def numberLines : Nat → List (List Byte) → List Byte
  | _, [] => []
  | n, l :: ls => fmt6i n ++ [32, 32] ++ l ++ numberLines (n + 1) ls

/-- The text with every tab replaced by `w` spaces. -/
def expandTabs (w : Nat) (file : List Byte) : List Byte :=
  file.flatMap fun b => if b = 9 then List.replicate w 32 else [b]

/-- A line already begun, followed by numbered lines. -/
def continueLines (n : Nat) : List (List Byte) → List Byte
  | [] => []
  | l :: ls => l ++ numberLines n ls

/-- Expected output of line numbering on `file` when `n` lines have been
numbered so far and the next character does (`s = true`) or does not start a
line. -/
def numbered (s : Bool) (n : Nat) (file : List Byte) : List Byte :=
  if s then numberLines (n + 1) (splitLines file) else continueLines (n + 1) (splitLines file)

/-- What a to-uppercase-only run writes for a byte that is passed to the stages. -/
def upperByte (b : Byte) : Byte := toUChar (toUpperAlpha (toChar (b.val : Int)))

/-- Numbers carried by the line-number prefixes among the output calls, in the
order they were written. -/
def prefixNumbers (ws : List Write) : List Nat :=
  ws.filterMap fun w => match w with
    | .printf_6i n => some n
    | _ => none

/-- The prefixes written so far carry the numbers `1 .. line_count`. -/
def Consecutive (g : Globals) : Prop :=
  prefixNumbers g.stdout = List.range' 1 g.line_count

/-- Since standard output was `out` and the counter `n`, either nothing has
been written and the beginning-of-file flag is still set, or what has been
written begins with the prefix numbered `n + 1`. -/
def PrefixFirst (out : List Write) (n : Nat) (g : Globals) : Prop :=
  (g.stdout = out ∧ g.line_count = n ∧ g.begin_of_file = true) ∨
    ∃ rest, g.stdout = out ++ Write.printf_6i (n + 1) :: Write.printf_2sp :: rest

/-- The rest of the loop body after the line-numbering stage: blank-line
removal, tab expansion and the write of the surviving character. -/
def afterCount (o : Options) (r p : Int) (g : Globals) : Int × Globals :=
  let r := if o.blank_lines then removeBlankLinesAlpha r p else r
  if o.tabs then
    emit (expandTabsAlpha r o.tabs_args g).1
      (if (expandTabsAlpha r o.tabs_args g).1 = 0 then 0 else p)
      (expandTabsAlpha r o.tabs_args g).2
  else emit r p g

/-- The usage text as ten lines, each followed by one newline. -/
def usageTenLines : List Byte :=
  ascii "Usage: filter [options] [file1 file2 ...]\nOptions:\n -b  --remove-blank-lines  removes empty lines.\n -d  --delete=X            deletes all occurrences of char X.\n -h  --help                display this information.\n -l  --tolower             convert all characters to lower case.\n -n  --line-numbers        prepend line numbers to each line.\n -r  --replace=XY          replace all char X with char Y.\n -u  --toupper             convert all characters to upper case.\n -x  --expand-tabs[=X]     convert tabs to X spaces (default is 8).\n"

/-- What `dumpHelp` writes: the usage line ends in a space and is followed by
an empty line, and an empty line follows the last option line. -/
def usageAsWritten : List Byte :=
  ascii "Usage: filter [options] [file1 file2 ...] \n\nOptions:\n -b  --remove-blank-lines  removes empty lines.\n -d  --delete=X            deletes all occurrences of char X.\n -h  --help                display this information.\n -l  --tolower             convert all characters to lower case.\n -n  --line-numbers        prepend line numbers to each line.\n -r  --replace=XY          replace all char X with char Y.\n -u  --toupper             convert all characters to upper case.\n -x  --expand-tabs[=X]     convert tabs to X spaces (default is 8).\n\n"

/-- The calls of `getopt_long` in `before` neither end the option loop nor
make `main` return. -/
def Continues (before : List Getopt) : Prop :=
  ∀ r ∈ before, r.key ≠ -1 ∧ r.key ≠ 104 ∧ r.key ≠ 63 ∧ r.key ≠ 58

/-- Scan of a sequence of output calls for line starts.  The state tells
whether the next thing written starts a line of the output (nothing written
yet, or the last character written was a newline); there only a line-number
prefix may follow.  The result is `none` when something else was written at a
line start, and the final state otherwise. -/
def lineScan : Bool → List Write → Option Bool
  | s, [] => some s
  | _, .printf_6i _ :: ws => lineScan false ws
  | s, .printf_2sp :: ws => if s then none else lineScan false ws
  | s, .putc c :: ws => if s then none else lineScan (decide (c = 10)) ws

/-- Every line of what the output calls write begins with a line-number
prefix. -/
def lineStartsNumbered (ws : List Write) : Bool := (lineScan true ws).isSome

/-- Along the run of `o` on the characters `cs`, entered with `previous = p`
and the globals `g`, tab expansion would have nothing to do: no character
reaches the tab-expansion stage as a tab, and none reaches it suppressed (as
NUL) while `previous` is a newline and line numbering or blank-line removal is
enabled.  (`o` is an option set with tab expansion off, so the first component
of `stages` is the character that reaches the place of the tab stage.) -/
def tabFree (o : Options) : Int → Globals → List Int → Bool
  | _, _, [] => true
  | p, g, c :: cs =>
      decide ((stages o c p g).1 ≠ 9) &&
      (decide ((stages o c p g).1 ≠ 0) || decide (p ≠ 10) ||
        (!o.line_numbers && !o.blank_lines)) &&
      tabFree o (iteration o c p g).1 (iteration o c p g).2 cs

/-- One call of `filter` with the options `o`, tab expansion off, gives tab
expansion nothing to do: `tabFree` along the whole run on `file`. -/
def noTabWork (o : Options) (g : Globals) (file : List Byte) : Bool :=
  tabFree { o with tabs := false } 0 { g with begin_of_file := true } (0 :: chars file)

/-- The characters of an option argument are `char` values. -/
def CharString (s : List Int) : Prop := ∀ c ∈ s, -128 ≤ c ∧ c ≤ 127

/-- No output call of `ws` writes an upper-case letter as a character. -/
def NoUpperPutc (ws : List Write) : Prop := ∀ c, Write.putc c ∈ ws → ¬ (65 ≤ c ∧ c ≤ 90)

/-! ## Characters and the read loop -/

theorem toChar_byte (b : Byte) :
    toChar (b.val : Int) = if b.val < 128 then (b.val : Int) else (b.val : Int) - 256 := by
  have h := b.isLt
  unfold toChar
  split <;> omega

theorem toUChar_toChar (b : Byte) : toUChar (toChar (b.val : Int)) = b := by
  have h := b.isLt
  apply Fin.ext
  simp only [toUChar, toChar, Fin.ofNat]
  omega

theorem toChar_eq_zero (b : Byte) : toChar (b.val : Int) = 0 ↔ b = 0 := by
  have h := b.isLt
  rw [Fin.ext_iff]
  simp only [toChar, Fin.val_zero]
  omega

theorem toChar_eq_EOF (b : Byte) : toChar (b.val : Int) = EOF ↔ b = 255 := by
  have h := b.isLt
  rw [Fin.ext_iff]
  simp only [toChar, EOF]
  show _ ↔ b.val = 255
  omega

theorem filterLoop_eq_feed (o : Options) (file : List Byte) :
    ∀ (reader previous : Int) (g : Globals),
      filterLoop o reader previous g file
        = (feed o (previous, g)
            ((reader :: file.map fun b => toChar (b.val : Int)).takeWhile (fun c => c ≠ EOF))).2 := by
  induction file with
  | nil =>
    intro reader previous g
    by_cases h : reader = EOF <;> simp [filterLoop, feed, List.takeWhile, h]
  | cons b rest ih =>
    intro reader previous g
    by_cases h : reader = EOF
    · simp [filterLoop, feed, List.takeWhile, h]
    · rw [filterLoop, if_neg h]
      simp only [ih]
      simp [feed, List.takeWhile, h]

/-! ## Pipelines without line context -/

theorem bytes_nil : bytes [] = [] := rfl

theorem bytes_append (a b : List Write) : bytes (a ++ b) = bytes a ++ bytes b := by
  simp [bytes]

theorem countLinesAlpha_zero (prev : Int) (g : Globals) : countLinesAlpha 0 prev g = (0, g) := by
  simp [countLinesAlpha]

theorem filter_eq_feed (o : Options) (g : Globals) (file : List Byte) :
    filter o g file = (feed o (0, { g with begin_of_file := true }) (0 :: chars file)).2 := by
  have h0 : (0 : Int) ≠ EOF := by decide
  unfold filter
  simp only [countLinesAlpha_zero, ite_self]
  rw [filterLoop_eq_feed]
  simp [chars, List.takeWhile, h0]

theorem chars_of_no_FF (file : List Byte) (h : ∀ b ∈ file, b ≠ 255) :
    chars file = file.map fun b => toChar (b.val : Int) := by
  unfold chars
  rw [List.takeWhile_eq_self_iff]
  intro c hc
  rw [List.mem_map] at hc
  obtain ⟨b, hb, rfl⟩ := hc
  simpa [toChar_eq_EOF] using h b hb

theorem stages_eq (o : Options) (c p : Int) (g : Globals) :
    stages o c p g =
      (let rg := if o.line_numbers then countLinesAlpha (pre o c) p g else (pre o c, g)
       let r := if o.blank_lines then removeBlankLinesAlpha rg.1 p else rg.1
       if o.tabs then
         ((expandTabsAlpha r o.tabs_args rg.2).1,
          if (expandTabsAlpha r o.tabs_args rg.2).1 = 0 then 0 else p,
          (expandTabsAlpha r o.tabs_args rg.2).2)
       else (r, p, rg.2)) := rfl

theorem iteration_of_no_line_ctx (o : Options) (hn : o.line_numbers = false)
    (hb : o.blank_lines = false) (c p : Int) (g : Globals) :
    (iteration o c p g).2 = { g with stdout := g.stdout ++ charWrites o c } := by
  unfold iteration
  rw [stages_eq]
  simp only [hn, hb, emit, charWrites, Bool.false_eq_true, if_false]
  by_cases ht : o.tabs = true
  · by_cases h9 : pre o c = 9
    · simp [ht, h9, expandTabsAlpha]
    · by_cases h0 : pre o c = 0 <;> simp [ht, h9, h0, expandTabsAlpha]
  · by_cases h0 : pre o c = 0 <;> simp [ht, h0]

theorem feed_of_no_line_ctx (o : Options) (hn : o.line_numbers = false)
    (hb : o.blank_lines = false) (cs : List Int) :
    ∀ (p : Int) (g : Globals),
      (feed o (p, g) cs).2 = { g with stdout := g.stdout ++ cs.flatMap (charWrites o) } := by
  induction cs with
  | nil => intro p g; simp [feed]
  | cons c cs ih =>
    intro p g
    have hstep : feed o (p, g) (c :: cs) = feed o ((iteration o c p g).1, (iteration o c p g).2) cs := rfl
    rw [hstep, ih, iteration_of_no_line_ctx o hn hb]
    simp [List.append_assoc]

/-- Standard output after `filter`, when neither line numbering nor blank-line
removal is enabled: every character contributes its own output calls. -/
theorem filter_stdout_of_no_line_ctx (o : Options) (hn : o.line_numbers = false)
    (hb : o.blank_lines = false) (g : Globals) (file : List Byte) :
    (filter o g file).stdout
      = g.stdout ++ charWrites o 0 ++ (chars file).flatMap (charWrites o) := by
  rw [filter_eq_feed, feed_of_no_line_ctx o hn hb]
  simp [List.append_assoc]

theorem bytes_putc_chars (file : List Byte) :
    bytes (file.map fun b => Write.putc (toChar (b.val : Int))) = file := by
  induction file with
  | nil => rfl
  | cons b rest ih =>
    have hc : bytes ((b :: rest).map fun b => Write.putc (toChar (b.val : Int)))
        = toUChar (toChar (b.val : Int))
            :: bytes (rest.map fun b => Write.putc (toChar (b.val : Int))) := rfl
    rw [hc, ih, toUChar_toChar]

theorem pre_of_noFilter (o : Options) (h : o.noFilter) (c : Int) : pre o c = c := by
  obtain ⟨h1, h2, h3, h4, -⟩ := h
  simp [pre, h1, h2, h3, h4]

theorem charWrites_of_noFilter (o : Options) (h : o.noFilter) (c : Int) :
    charWrites o c = if c ≠ 0 then [Write.putc c] else [] := by
  have ht : o.tabs = false := h.2.2.2.2.2.2
  simp [charWrites, pre_of_noFilter o h, ht]

/-! ## C1: identity pipeline -/

/-- C1 (counterexample): with no filter enabled the one-byte input consisting of a NUL byte
is not reproduced; nothing is written. -/
theorem nul_byte_is_dropped : ¬ (output {} [0] = [0]) := by decide

/-- C1 (amended): with no filter stage enabled, `filter` appends exactly the input to standard
output, for every input that contains neither a NUL byte nor a byte `0xFF`. -/
theorem identity_pipeline (o : Options) (g : Globals) (file : List Byte)
    (hopt : o.noFilter) (hfile : ∀ b ∈ file, b ≠ 0 ∧ b ≠ 255) :
    bytes (filter o g file).stdout = bytes g.stdout ++ file := by
  rw [filter_stdout_of_no_line_ctx o hopt.2.2.2.2.1 hopt.2.2.2.2.2.1,
    chars_of_no_FF file fun b hb => (hfile b hb).2]
  have hflat : (file.map fun b => toChar (b.val : Int)).flatMap (charWrites o)
      = file.map fun b => Write.putc (toChar (b.val : Int)) := by
    rw [List.flatMap_map]
    clear g
    induction file with
    | nil => rfl
    | cons b rest ih =>
      have hb0 : toChar (b.val : Int) ≠ 0 := by
        rw [Ne, toChar_eq_zero]; exact (hfile b (List.mem_cons_self _ _)).1
      rw [List.flatMap_cons, ih fun x hx => hfile x (List.mem_cons_of_mem _ hx),
        charWrites_of_noFilter o hopt]
      simp [hb0]
  rw [hflat, charWrites_of_noFilter o hopt]
  simp [bytes_append, bytes_putc_chars, bytes_nil]

/-- Witness for `identity_pipeline`. -/
theorem identity_pipeline_witness :
    bytes (filter {} {} [97, 10, 98]).stdout = bytes ({} : Globals).stdout ++ [97, 10, 98] :=
  identity_pipeline {} {} [97, 10, 98] (by decide) (by simp)

/-! ## C2: update of the previous character -/

/-- C2 (counterexample): with only blank-line removal enabled, `"a\n\n\nb"` does not yield
`"a\n\nb"`; the third newline is suppressed like the second because `previous` still holds
the first newline: after the suppressed second newline `previous` is `'\n'`, not absent. -/
theorem previous_not_reset_by_blank_line_removal :
    output { blank_lines := true } [97, 10, 10, 10, 98] ≠ [97, 10, 10, 98] ∧
    (stages { blank_lines := true } 10 10 {}).1 = 0 ∧
    (iteration { blank_lines := true } 10 10 {}).1 = 10 := by decide

/-- C2 (amended): after a pass through the stages, the `previous` handed to the next character
is the character just written if one was written; if the character was suppressed, `previous`
is reset to absent only when tab expansion is enabled and otherwise keeps the value it had.
With only blank-line removal enabled, `"a\n\n\nb"` yields `"a\nb"`. -/
theorem previous_update_rule (o : Options) (reader previous : Int) (g : Globals) :
    ((stages o reader previous g).1 ≠ 0 →
      (iteration o reader previous g).1 = (stages o reader previous g).1 ∧
      (iteration o reader previous g).2.stdout
        = (stages o reader previous g).2.2.stdout ++ [Write.putc (stages o reader previous g).1]) ∧
    ((stages o reader previous g).1 = 0 →
      (iteration o reader previous g).1 = (if o.tabs then 0 else previous) ∧
      (iteration o reader previous g).2 = (stages o reader previous g).2.2) ∧
    (∀ (b : Byte) (rest : List Byte), reader ≠ EOF →
      filterLoop o reader previous g (b :: rest)
        = filterLoop o (toChar (b.val : Int)) (iteration o reader previous g).1
            (iteration o reader previous g).2 rest) ∧
    output { blank_lines := true } [97, 10, 10, 10, 98] = [97, 10, 98] := by
  refine ⟨?_, ?_, ?_, by decide⟩
  · intro h
    simp [iteration, emit, h]
  · intro h
    have hp : (stages o reader previous g).2.1 = if o.tabs then 0 else previous := by
      rw [stages_eq] at h ⊢
      by_cases ht : o.tabs = true
      · simp only [ht, if_true] at h ⊢
        simp [h]
      · simp [ht]
    simp [iteration, emit, h, hp]
  · intro b rest h
    rw [filterLoop, if_neg h]

/-! ## Tab expansion, delete and replace on inputs free of NUL and 0xFF -/

/-- Per-character output of a pipeline without line context, on 0xFF-free input. -/
theorem output_of_charwise (o : Options) (hn : o.line_numbers = false)
    (hb : o.blank_lines = false) (g : Globals) (file : List Byte) (f : Byte → List Byte)
    (h0 : charWrites o 0 = [])
    (hf : ∀ b ∈ file, b ≠ 255 ∧ bytes (charWrites o (toChar (b.val : Int))) = f b) :
    bytes (filter o g file).stdout = bytes g.stdout ++ file.flatMap f := by
  rw [filter_stdout_of_no_line_ctx o hn hb, chars_of_no_FF file fun b hb => (hf b hb).1, h0,
    List.append_nil, bytes_append, List.flatMap_map]
  congr 1
  clear g
  induction file with
  | nil => rfl
  | cons b rest ih =>
    rw [List.flatMap_cons, List.flatMap_cons, bytes_append,
      ih fun x hx => hf x (List.mem_cons_of_mem _ hx), (hf b (List.mem_cons_self _ _)).2]

theorem bytes_replicate_putc (n : Nat) (c : Int) :
    bytes (List.replicate n (Write.putc c)) = List.replicate n (toUChar c) := by
  induction n with
  | zero => rfl
  | succ n ih =>
    rw [List.replicate_succ, List.replicate_succ, ← ih]
    rfl

theorem bytes_putc_toChar (b : Byte) : bytes [Write.putc (toChar (b.val : Int))] = [b] := by
  show [toUChar (toChar (b.val : Int))] = [b]
  rw [toUChar_toChar]

theorem toChar_eq_tab (b : Byte) : toChar (b.val : Int) = 9 ↔ b = 9 := by
  have h := b.isLt
  rw [Fin.ext_iff]
  simp only [toChar]
  show _ ↔ b.val = 9
  omega

/-- Tab expansion on inputs free of NUL and 0xFF: with only tab expansion enabled, the output is the
input with every tab replaced by `num_spaces` spaces (none when `num_spaces` is negative). -/
theorem tab_expansion_of_no_NUL_FF (args : Option (List Int)) (g : Globals) (file : List Byte)
    (hfile : ∀ b ∈ file, b ≠ 0 ∧ b ≠ 255) :
    bytes (filter { tabs := true, tabs_args := args } g file).stdout
      = bytes g.stdout ++ expandTabs (numSpaces args).toNat file := by
  apply output_of_charwise _ rfl rfl
  · simp [charWrites, pre]
  · intro b hb
    refine ⟨(hfile b hb).2, ?_⟩
    have hb0 : toChar (b.val : Int) ≠ 0 := by
      rw [Ne, toChar_eq_zero]; exact (hfile b hb).1
    by_cases h9 : b = 9
    · subst h9
      have : toChar (((9 : Byte).val : Nat) : Int) = 9 := by decide
      simp only [charWrites, pre, Bool.false_eq_true, if_false, this, true_and, if_true]
      rw [bytes_replicate_putc]
      rfl
    · have h9c : toChar (b.val : Int) ≠ 9 := by rw [Ne, toChar_eq_tab]; exact h9
      simp only [charWrites, pre, Bool.false_eq_true, if_false, h9c, and_false, hb0, ne_eq,
        not_false_eq_true, if_true, h9]
      exact bytes_putc_toChar b

/-- Delete on inputs free of NUL and 0xFF: with only delete=X enabled, the output is
the input without the occurrences of X. -/
theorem delete_of_no_NUL_FF (X : Int) (tl : List Int) (g : Globals) (file : List Byte)
    (hfile : ∀ b ∈ file, b ≠ 0 ∧ b ≠ 255) :
    bytes (filter { delete := true, delete_args := X :: tl } g file).stdout
      = bytes g.stdout ++ file.filter fun b => decide (toChar (b.val : Int) ≠ X) := by
  have hflat : (file.filter fun b => decide (toChar (b.val : Int) ≠ X))
      = file.flatMap fun b => if toChar (b.val : Int) ≠ X then [b] else [] := by
    clear hfile
    induction file with
    | nil => rfl
    | cons b rest ih =>
      rw [List.filter_cons, List.flatMap_cons, ih]
      by_cases h : toChar (b.val : Int) = X <;> simp [h]
  rw [hflat]
  apply output_of_charwise _ rfl rfl
  · simp [charWrites, pre, deleteAlpha, cstr]
  · intro b hb
    refine ⟨(hfile b hb).2, ?_⟩
    have hb0 : toChar (b.val : Int) ≠ 0 := by
      rw [Ne, toChar_eq_zero]; exact (hfile b hb).1
    by_cases h : toChar (b.val : Int) = X
    · simp [charWrites, pre, deleteAlpha, cstr, h, bytes_nil]
    · simp only [charWrites, pre, deleteAlpha, cstr, List.getD_cons_zero, h, hb0,
        Bool.false_eq_true, if_false, if_true, ne_eq, not_false_eq_true, false_and]
      exact bytes_putc_toChar b

/-- Replace on inputs free of NUL and 0xFF: with only replace=XY enabled (X, Y not NUL), the output
holds Y wherever the input holds X and the input's byte everywhere else. -/
theorem replace_of_no_NUL_FF (X Y : Int) (tl : List Int) (g : Globals) (file : List Byte)
    (hX : X ≠ 0) (hY : Y ≠ 0) (hfile : ∀ b ∈ file, b ≠ 0 ∧ b ≠ 255) :
    bytes (filter { replace := true, replace_args := X :: Y :: tl } g file).stdout
      = bytes g.stdout ++ file.map fun b => if toChar (b.val : Int) = X then toUChar Y else b := by
  have hflat : (file.map fun b => if toChar (b.val : Int) = X then toUChar Y else b)
      = file.flatMap fun b => [if toChar (b.val : Int) = X then toUChar Y else b] := by
    clear hfile
    induction file with
    | nil => rfl
    | cons b rest ih => simp [ih]
  rw [hflat]
  apply output_of_charwise _ rfl rfl
  · have h0 : (0 : Int) ≠ X := fun h => hX h.symm
    simp [charWrites, pre, replaceAlpha, cstr, h0]
  · intro b hb
    refine ⟨(hfile b hb).2, ?_⟩
    have hb0 : toChar (b.val : Int) ≠ 0 := by
      rw [Ne, toChar_eq_zero]; exact (hfile b hb).1
    by_cases h : toChar (b.val : Int) = X
    · simp only [charWrites, pre, replaceAlpha, cstr, List.getD_cons_zero, List.getD_cons_succ,
        h, hY, Bool.false_eq_true, if_false, if_true, ne_eq, not_false_eq_true, false_and]
      rfl
    · simp only [charWrites, pre, replaceAlpha, cstr, List.getD_cons_zero, h, hb0,
        Bool.false_eq_true, if_false, if_true, ne_eq, not_false_eq_true, false_and]
      exact bytes_putc_toChar b

/-! ## Line numbering on inputs free of NUL and 0xFF -/

theorem numbered_cons (s : Bool) (n : Nat) (b : Byte) (rest : List Byte) :
    numbered s n (b :: rest)
      = (if s then fmt6i (n + 1) ++ [32, 32] else [])
          ++ b :: numbered (decide (b = 10)) (if s then n + 1 else n) rest := by
  by_cases hb : b = 10
  · cases s <;> simp [numbered, splitLines, hb, numberLines, continueLines]
  · cases s <;> cases hr : splitLines rest <;>
      simp [numbered, splitLines, hb, hr, numberLines, continueLines]

theorem toChar_eq_newline (b : Byte) : toChar (b.val : Int) = 10 ↔ b = 10 := by
  have h := b.isLt
  rw [Fin.ext_iff]
  simp only [toChar]
  show _ ↔ b.val = 10
  omega

theorem feed_line_numbers (file : List Byte) (hfile : ∀ b ∈ file, b ≠ 0) :
    ∀ (p : Int) (g : Globals),
      bytes (feed { line_numbers := true } (p, g) (file.map fun b => toChar (b.val : Int))).2.stdout
        = bytes g.stdout
            ++ numbered (decide (g.line_count = 0 ∨ p = 10 ∨ g.begin_of_file = true))
                g.line_count file := by
  induction file with
  | nil => intro p g; cases hs : decide (g.line_count = 0 ∨ p = 10 ∨ g.begin_of_file = true) <;>
      simp [feed, numbered, splitLines, numberLines, continueLines]
  | cons b rest ih =>
    intro p g
    have hb0 : toChar (b.val : Int) ≠ 0 := by
      rw [Ne, toChar_eq_zero]; exact hfile b (List.mem_cons_self _ _)
    have hstep : feed { line_numbers := true } (p, g) ((b :: rest).map fun b => toChar (b.val : Int))
        = feed { line_numbers := true }
            ((iteration { line_numbers := true } (toChar (b.val : Int)) p g).1,
             (iteration { line_numbers := true } (toChar (b.val : Int)) p g).2)
            (rest.map fun b => toChar (b.val : Int)) := rfl
    rw [hstep, ih (fun x hx => hfile x (List.mem_cons_of_mem _ hx)), numbered_cons]
    by_cases hs : g.line_count = 0 ∨ p = 10 ∨ g.begin_of_file = true
    · have hit : iteration { line_numbers := true } (toChar (b.val : Int)) p g
          = (toChar (b.val : Int),
              { line_count := g.line_count + 1, begin_of_file := false,
                stdout := g.stdout ++ [Write.printf_6i (g.line_count + 1), Write.printf_2sp]
                  ++ [Write.putc (toChar (b.val : Int))] }) := by
        simp [iteration, stages_eq, pre, countLinesAlpha, emit, hb0, hs]
      rw [hit]
      have hpre : bytes [Write.printf_6i (g.line_count + 1), Write.printf_2sp]
          = fmt6i (g.line_count + 1) ++ [32, 32] := by
        simp [bytes, Write.bytes]
      simp only [bytes_append, bytes_putc_toChar, hs, decide_True, if_true, toChar_eq_newline,
        Nat.add_one_ne_zero, false_or, Bool.false_eq_true, or_false, List.append_assoc, hpre,
        List.singleton_append]
    · have hit : iteration { line_numbers := true } (toChar (b.val : Int)) p g
          = (toChar (b.val : Int),
              { g with stdout := g.stdout ++ [Write.putc (toChar (b.val : Int))] }) := by
        simp [iteration, stages_eq, pre, countLinesAlpha, emit, hb0, hs]
      rw [hit]
      have h1 : g.line_count ≠ 0 := fun h => hs (Or.inl h)
      have h2 : p ≠ 10 := fun h => hs (Or.inr (Or.inl h))
      have h3 : g.begin_of_file ≠ true := fun h => hs (Or.inr (Or.inr h))
      simp [bytes_append, bytes_putc_toChar, toChar_eq_newline, h1, h2, h3]

/-- Line numbering on inputs free of NUL and 0xFF: with only line numbering enabled and a fresh counter,
the output is the lines of the input, each preceded by its number (from 1) in a field of
width six and two spaces. -/
theorem line_numbering_of_no_NUL_FF (file : List Byte) (hfile : ∀ b ∈ file, b ≠ 0 ∧ b ≠ 255) :
    output { line_numbers := true } file = numberLines 1 (splitLines file) := by
  unfold output
  rw [filter_eq_feed, chars_of_no_FF file fun b hb => (hfile b hb).2]
  have h0 : feed { line_numbers := true } (0, { ({} : Globals) with begin_of_file := true })
      (0 :: file.map fun b => toChar (b.val : Int))
      = feed { line_numbers := true } (0, { ({} : Globals) with begin_of_file := true })
          (file.map fun b => toChar (b.val : Int)) := rfl
  rw [h0, feed_line_numbers file fun b hb => (hfile b hb).1]
  simp [numbered, bytes_nil]

/-! ## C6: delete wins over replace -/

theorem feed_congr (o₁ o₂ : Options)
    (hit : ∀ c p g, iteration o₁ c p g = iteration o₂ c p g) (pg : Int × Globals)
    (cs : List Int) : feed o₁ pg cs = feed o₂ pg cs := by
  have hf : (fun (pg : Int × Globals) (c : Int) => iteration o₁ c pg.1 pg.2)
      = fun pg c => iteration o₂ c pg.1 pg.2 := by
    funext pg c
    exact hit c pg.1 pg.2
  unfold feed
  rw [hf]

/-- Two option sets whose loop bodies agree give the same run of `filter`. -/
theorem filter_congr (o₁ o₂ : Options)
    (hit : ∀ c p g, iteration o₁ c p g = iteration o₂ c p g) (g : Globals)
    (file : List Byte) : filter o₁ g file = filter o₂ g file := by
  rw [filter_eq_feed, filter_eq_feed, feed_congr o₁ o₂ hit]

/-- The loop bodies of two option sets agree when the character-only stages
agree and the remaining options are the same. -/
theorem iteration_congr (o₁ o₂ : Options) (hpre : ∀ c, pre o₁ c = pre o₂ c)
    (hn : o₁.line_numbers = o₂.line_numbers) (hb : o₁.blank_lines = o₂.blank_lines)
    (ht : o₁.tabs = o₂.tabs) (ha : o₁.tabs_args = o₂.tabs_args) (c p : Int) (g : Globals) :
    iteration o₁ c p g = iteration o₂ c p g := by
  unfold iteration
  rw [stages_eq, stages_eq, hpre, hn, hb, ht, ha]

/-- C6: when delete=X is enabled (X not NUL), also enabling replace with the same target X
(and any substitute) does not change what `filter` does, whatever the other options and the
input: the output equals that of the option set without replace. -/
theorem delete_wins_over_replace (o : Options) (X : Int) (rargs : List Int) (g : Globals)
    (file : List Byte) (hd : o.delete = true) (hX : X ≠ 0)
    (hdx : cstr o.delete_args 0 = X) (hrx : cstr rargs 0 = X) :
    filter { o with replace := true, replace_args := rargs } g file
      = filter { o with replace := false } g file := by
  apply filter_congr
  intro c p g
  refine iteration_congr _ _ ?_ ?_ ?_ ?_ ?_ c p g <;> try rfl
  intro c
  have h0 : (0 : Int) ≠ X := fun h => hX h.symm
  by_cases hc : c = X
  · simp [pre, hd, deleteAlpha, replaceAlpha, hdx, hrx, hc, h0]
  · simp [pre, hd, deleteAlpha, replaceAlpha, hdx, hrx, hc]

/-- Witness for `delete_wins_over_replace`: delete='a', replace 'a'->'b' on "banana" gives
"bnn", the output of delete='a' alone. -/
theorem delete_wins_over_replace_witness :
    filter { delete := true, delete_args := [97], replace := true, replace_args := [97, 98] } {}
        [98, 97, 110, 97, 110, 97]
      = filter { delete := true, delete_args := [97], replace := false } {}
          [98, 97, 110, 97, 110, 97] ∧
    output { delete := true, delete_args := [97], replace := true, replace_args := [97, 98] }
        [98, 97, 110, 97, 110, 97] = [98, 110, 110] :=
  ⟨delete_wins_over_replace { delete := true, delete_args := [97] } 97 [97, 98] {}
      [98, 97, 110, 97, 110, 97] rfl (by decide) rfl rfl, by decide⟩

/-! ## C8: case conversion touches letters only -/

/-- C8: on every `char` value, `toUpperAlpha` maps the letters 'a'..'z' to the corresponding
upper-case letter and leaves every other character unchanged, and `toLowerAlpha` maps 'A'..'Z'
to the corresponding lower-case letter and leaves every other character unchanged. -/
theorem case_conversion_letters_only (c : Int) (hc : -128 ≤ c ∧ c ≤ 127) :
    toUpperAlpha c = (if 97 ≤ c ∧ c ≤ 122 then c - 32 else c) ∧
    toLowerAlpha c = (if 65 ≤ c ∧ c ≤ 90 then c + 32 else c) := by
  have hu : c ≥ 97 ∨ c ≤ 122 := by omega
  have hl : c ≥ 65 ∨ c ≤ 90 := by omega
  simp only [toUpperAlpha, toLowerAlpha, hu, hl, if_true, toupper, tolower, toChar]
  constructor <;> split <;> omega

/-- Witness for `case_conversion_letters_only` at 'a'. -/
theorem case_conversion_letters_only_witness :
    toUpperAlpha 97 = (if (97 : Int) ≤ 97 ∧ (97 : Int) ≤ 122 then 97 - 32 else 97) ∧
    toLowerAlpha 97 = (if (65 : Int) ≤ 97 ∧ (97 : Int) ≤ 90 then 97 + 32 else 97) :=
  case_conversion_letters_only 97 (by decide)

/-! ## C9: the case filters are idempotent -/

theorem chars_eq_takeWhile (file : List Byte) :
    chars file = (file.takeWhile fun b => decide (b ≠ 255)).map fun b => toChar (b.val : Int) := by
  unfold chars
  induction file with
  | nil => rfl
  | cons b rest ih =>
    rw [List.map_cons, List.takeWhile_cons, List.takeWhile_cons]
    by_cases hb : b = 255
    · have hc : toChar (b.val : Int) = EOF := (toChar_eq_EOF b).2 hb
      rw [if_neg (by rw [hc]; decide), if_neg (by rw [hb]; decide)]
      rfl
    · have hc : toChar (b.val : Int) ≠ EOF := by rw [Ne, toChar_eq_EOF]; exact hb
      simp only [hb, hc, ne_eq, not_false_eq_true, decide_True, if_true, List.map_cons]
      rw [← ih]

theorem chars_takeWhile (file : List Byte) :
    chars (file.takeWhile fun b => decide (b ≠ 255)) = chars file := by
  rw [chars_eq_takeWhile file, chars_of_no_FF]
  intro b hb
  simpa using List.mem_takeWhile_imp hb

/-- The bytes from the first 0xFF on play no part in a run of `filter`. -/
theorem filter_takeWhile (o : Options) (g : Globals) (file : List Byte) :
    filter o g (file.takeWhile fun b => decide (b ≠ 255)) = filter o g file := by
  rw [filter_eq_feed, filter_eq_feed, chars_takeWhile]

theorem toUpperAlpha_char (c : Int) (hc : -128 ≤ c ∧ c ≤ 127) :
    toUpperAlpha c = if 97 ≤ c ∧ c ≤ 122 then c - 32 else c := by
  have hu : c ≥ 97 ∨ c ≤ 122 := by omega
  simp only [toUpperAlpha, hu, if_true, toupper, toChar]
  split <;> omega

theorem toChar_range (b : Byte) : -128 ≤ toChar (b.val : Int) ∧ toChar (b.val : Int) ≤ 127 := by
  unfold toChar
  omega

theorem toChar_toUChar (c : Int) (hc : -128 ≤ c ∧ c ≤ 127) :
    toChar (((toUChar c).val : Nat) : Int) = c := by
  simp only [toUChar, toChar, Fin.ofNat]
  omega

theorem upperByte_facts (b : Byte) (h0 : b ≠ 0) (hF : b ≠ 255) :
    upperByte b ≠ 0 ∧ upperByte b ≠ 255 ∧ upperByte (upperByte b) = upperByte b := by
  have hr := toChar_range b
  have hz : toChar (b.val : Int) ≠ 0 := by rw [Ne, toChar_eq_zero]; exact h0
  have he : toChar (b.val : Int) ≠ -1 := by
    have := toChar_eq_EOF b; rw [EOF] at this; rw [Ne, this]; exact hF
  have hu := toUpperAlpha_char _ hr
  have hur : -128 ≤ toUpperAlpha (toChar (b.val : Int)) ∧ toUpperAlpha (toChar (b.val : Int)) ≤ 127 := by
    rw [hu]; split <;> omega
  have hback := toChar_toUChar _ hur
  refine ⟨?_, ?_, ?_⟩
  · intro h
    have := (toChar_eq_zero (upperByte b)).2 h
    rw [upperByte, hback, hu] at this
    split at this <;> omega
  · intro h
    have := (toChar_eq_EOF (upperByte b)).2 h
    rw [upperByte, hback, hu, EOF] at this
    split at this <;> omega
  · have h2 : toUpperAlpha (toUpperAlpha (toChar (b.val : Int))) = toUpperAlpha (toChar (b.val : Int)) := by
      rw [toUpperAlpha_char _ hur, hu]
      split_ifs <;> omega
    show toUChar (toUpperAlpha (toChar (((upperByte b).val : Nat) : Int))) = upperByte b
    rw [upperByte, hback, h2]

/-- Output of a to-uppercase-only run: the bytes before the first 0xFF, without the NUL
bytes, each upper-cased. -/
theorem output_upper (file : List Byte) :
    output { upper := true } file
      = (file.takeWhile fun b => decide (b ≠ 255)).flatMap
          fun b => if b = 0 then [] else [upperByte b] := by
  unfold output
  rw [← filter_takeWhile]
  have h := output_of_charwise { upper := true } rfl rfl {}
    (file.takeWhile fun b => decide (b ≠ 255)) (fun b => if b = 0 then [] else [upperByte b])
    (by decide) (by
      intro b hb
      have hF : b ≠ 255 := by simpa using List.mem_takeWhile_imp hb
      refine ⟨hF, ?_⟩
      have hr := toChar_range b
      have hu := toUpperAlpha_char _ hr
      by_cases h0 : b = 0
      · subst h0; decide
      · have hz : toChar (b.val : Int) ≠ 0 := by rw [Ne, toChar_eq_zero]; exact h0
        have hnz : toUpperAlpha (toChar (b.val : Int)) ≠ 0 := by
          rw [hu]; split <;> omega
        simp [charWrites, pre, hnz, h0, bytes, Write.bytes, upperByte])
  simpa [bytes_nil] using h

theorem flatMap_upper_fixed (l : List Byte)
    (h : ∀ x ∈ l, x ≠ 0 ∧ x ≠ 255 ∧ upperByte x = x) :
    ((l.takeWhile fun b => decide (b ≠ 255)).flatMap fun b => if b = 0 then [] else [upperByte b])
      = l := by
  induction l with
  | nil => rfl
  | cons x rest ih =>
    obtain ⟨h0, hF, hu⟩ := h x (List.mem_cons_self _ _)
    rw [List.takeWhile_cons, if_pos (by simpa using hF), List.flatMap_cons,
      ih fun y hy => h y (List.mem_cons_of_mem _ hy), if_neg h0, hu]
    rfl

/-- C9: `toUpperAlpha` and `toLowerAlpha` are idempotent on every `char` value, and feeding
the output of a to-uppercase-only run through a second to-uppercase-only run gives the same
output, for every input. -/
theorem case_filters_idempotent (c : Int) (hc : -128 ≤ c ∧ c ≤ 127) (file : List Byte) :
    toUpperAlpha (toUpperAlpha c) = toUpperAlpha c ∧
    toLowerAlpha (toLowerAlpha c) = toLowerAlpha c ∧
    output { upper := true } (output { upper := true } file) = output { upper := true } file := by
  refine ⟨?_, ?_, ?_⟩
  · have hu : ∀ d : Int, d ≥ 97 ∨ d ≤ 122 := fun d => by omega
    simp only [toUpperAlpha, hu, if_true, toupper, toChar]
    split_ifs <;> omega
  · have hl : ∀ d : Int, d ≥ 65 ∨ d ≤ 90 := fun d => by omega
    simp only [toLowerAlpha, hl, if_true, tolower, toChar]
    split_ifs <;> omega
  · rw [output_upper (output { upper := true } file)]
    apply flatMap_upper_fixed
    intro x hx
    rw [output_upper file, List.mem_flatMap] at hx
    obtain ⟨b, hb, hxb⟩ := hx
    have hF : b ≠ 255 := by simpa using List.mem_takeWhile_imp hb
    by_cases h0 : b = 0
    · simp [h0] at hxb
    · rw [if_neg h0, List.mem_singleton] at hxb
      subst hxb
      exact upperByte_facts b h0 hF

/-- Witness for `case_filters_idempotent` at 'a' and the input "aB\n". -/
theorem case_filters_idempotent_witness :
    toUpperAlpha (toUpperAlpha 97) = toUpperAlpha 97 ∧
    toLowerAlpha (toLowerAlpha 97) = toLowerAlpha 97 ∧
    output { upper := true } (output { upper := true } [97, 66, 10])
      = output { upper := true } [97, 66, 10] :=
  case_filters_idempotent 97 (by decide) [97, 66, 10]

/-! ## C10: the line counter across files -/

theorem prefixNumbers_append (a b : List Write) :
    prefixNumbers (a ++ b) = prefixNumbers a ++ prefixNumbers b := by
  simp [prefixNumbers]

theorem prefixNumbers_replicate_putc (n : Nat) (c : Int) :
    prefixNumbers (List.replicate n (Write.putc c)) = [] := by
  induction n with
  | zero => rfl
  | succ n ih => rw [List.replicate_succ]; exact ih

theorem countLinesAlpha_consecutive (c p : Int) (g : Globals) (h : Consecutive g) :
    Consecutive (countLinesAlpha c p g).2 := by
  unfold countLinesAlpha
  split
  · unfold Consecutive at h ⊢
    simp only [prefixNumbers_append, h]
    rw [List.range'_concat]
    simp [prefixNumbers, Nat.add_comm]
  · exact h

theorem expandTabsAlpha_consecutive (c : Int) (a : Option (List Int)) (g : Globals)
    (h : Consecutive g) : Consecutive (expandTabsAlpha c a g).2 := by
  unfold expandTabsAlpha
  split
  · unfold Consecutive at h ⊢
    simp only [prefixNumbers_append, prefixNumbers_replicate_putc, List.append_nil, h]
  · exact h

theorem iteration_consecutive (o : Options) (c p : Int) (g : Globals) (h : Consecutive g) :
    Consecutive (iteration o c p g).2 := by
  have h1 : Consecutive
      (if o.line_numbers then countLinesAlpha (pre o c) p g else (pre o c, g)).2 := by
    split
    · exact countLinesAlpha_consecutive _ _ _ h
    · exact h
  have h2 : Consecutive (stages o c p g).2.2 := by
    rw [stages_eq]
    simp only []
    split
    · exact expandTabsAlpha_consecutive _ _ _ h1
    · exact h1
  unfold iteration emit
  by_cases hz : (stages o c p g).1 = 0
  · simpa [hz] using h2
  · unfold Consecutive at h2 ⊢
    simp only [ne_eq, hz, not_false_eq_true, if_true, prefixNumbers_append, h2]
    simp [prefixNumbers]

theorem feed_consecutive (o : Options) (cs : List Int) :
    ∀ (p : Int) (g : Globals), Consecutive g → Consecutive (feed o (p, g) cs).2 := by
  induction cs with
  | nil => intro p g h; exact h
  | cons c cs ih =>
    intro p g h
    exact ih _ _ (iteration_consecutive o c p g h)

theorem filter_consecutive (o : Options) (g : Globals) (file : List Byte) (h : Consecutive g) :
    Consecutive (filter o g file) := by
  rw [filter_eq_feed]
  exact feed_consecutive o _ _ _ h

theorem filterAll_consecutive (o : Options) (files : List (List Byte)) :
    ∀ g : Globals, Consecutive g → Consecutive (filterAll o g files) := by
  induction files with
  | nil => intro g h; exact h
  | cons f fs ih =>
    intro g h
    exact ih _ (filter_consecutive o g f h)

theorem iteration_eq_afterCount (o : Options) (c p : Int) (g : Globals) :
    iteration o c p g
      = afterCount o (if o.line_numbers then countLinesAlpha (pre o c) p g else (pre o c, g)).1 p
          (if o.line_numbers then countLinesAlpha (pre o c) p g else (pre o c, g)).2 := by
  unfold iteration afterCount
  rw [stages_eq]
  by_cases ht : o.tabs = true <;> simp [ht]

theorem emit_appends (r p : Int) (g : Globals) :
    ∃ ws, (emit r p g).2.stdout = g.stdout ++ ws := by
  unfold emit
  split
  · exact ⟨_, rfl⟩
  · exact ⟨[], (List.append_nil _).symm⟩

theorem expandTabsAlpha_appends (c : Int) (a : Option (List Int)) (g : Globals) :
    ∃ ws, (expandTabsAlpha c a g).2.stdout = g.stdout ++ ws := by
  by_cases h : c = 9
  · exact ⟨List.replicate (numSpaces a).toNat (Write.putc 32), by simp [expandTabsAlpha, h]⟩
  · exact ⟨[], by simp [expandTabsAlpha, h]⟩

theorem countLinesAlpha_appends (c p : Int) (g : Globals) :
    ∃ ws, (countLinesAlpha c p g).2.stdout = g.stdout ++ ws := by
  by_cases h : c ≠ 0 ∧ (g.line_count = 0 ∨ p = 10 ∨ g.begin_of_file = true)
  · exact ⟨[Write.printf_6i (g.line_count + 1), Write.printf_2sp], by
      rw [countLinesAlpha, if_pos h]⟩
  · exact ⟨[], by rw [countLinesAlpha, if_neg h, List.append_nil]⟩

theorem afterCount_appends (o : Options) (r p : Int) (g : Globals) :
    ∃ ws, (afterCount o r p g).2.stdout = g.stdout ++ ws := by
  unfold afterCount
  simp only []
  split
  · obtain ⟨ws, hws⟩ := emit_appends
      (expandTabsAlpha (if o.blank_lines then removeBlankLinesAlpha r p else r) o.tabs_args g).1
      (if (expandTabsAlpha (if o.blank_lines then removeBlankLinesAlpha r p else r)
        o.tabs_args g).1 = 0 then 0 else p)
      (expandTabsAlpha (if o.blank_lines then removeBlankLinesAlpha r p else r) o.tabs_args g).2
    obtain ⟨ws', hws'⟩ := expandTabsAlpha_appends
      (if o.blank_lines then removeBlankLinesAlpha r p else r) o.tabs_args g
    exact ⟨ws' ++ ws, by rw [hws, hws', List.append_assoc]⟩
  · exact emit_appends _ _ _

theorem afterCount_zero (o : Options) (p : Int) (g : Globals) : (afterCount o 0 p g).2 = g := by
  unfold afterCount
  by_cases hb : o.blank_lines = true <;> by_cases ht : o.tabs = true <;>
    simp [hb, ht, removeBlankLinesAlpha, expandTabsAlpha, emit]

theorem iteration_appends (o : Options) (c p : Int) (g : Globals) :
    ∃ ws, (iteration o c p g).2.stdout = g.stdout ++ ws := by
  rw [iteration_eq_afterCount]
  obtain ⟨ws, hws⟩ := afterCount_appends o
    (if o.line_numbers then countLinesAlpha (pre o c) p g else (pre o c, g)).1 p
    (if o.line_numbers then countLinesAlpha (pre o c) p g else (pre o c, g)).2
  by_cases hn : o.line_numbers = true
  · obtain ⟨ws', hws'⟩ := countLinesAlpha_appends (pre o c) p g
    simp only [hn, if_true] at hws ⊢
    exact ⟨ws' ++ ws, by rw [hws, hws', List.append_assoc]⟩
  · simp only [hn, Bool.false_eq_true, if_false] at hws ⊢
    exact ⟨ws, hws⟩

theorem iteration_begin_of_file (o : Options) (hn : o.line_numbers = true) (c p : Int)
    (g : Globals) (hbof : g.begin_of_file = true) :
    (pre o c = 0 → (iteration o c p g).2 = g) ∧
    (pre o c ≠ 0 → ∃ rest, (iteration o c p g).2.stdout
        = g.stdout ++ Write.printf_6i (g.line_count + 1) :: Write.printf_2sp :: rest) := by
  rw [iteration_eq_afterCount]
  simp only [hn, if_true]
  constructor
  · intro h0
    rw [h0, countLinesAlpha_zero, afterCount_zero]
  · intro h0
    have hc : countLinesAlpha (pre o c) p g
        = (pre o c,
            { line_count := g.line_count + 1, begin_of_file := false,
              stdout := g.stdout ++ [Write.printf_6i (g.line_count + 1), Write.printf_2sp] }) := by
      simp [countLinesAlpha, h0, hbof]
    rw [hc]
    obtain ⟨ws, hws⟩ := afterCount_appends o (pre o c) p
      { line_count := g.line_count + 1, begin_of_file := false,
        stdout := g.stdout ++ [Write.printf_6i (g.line_count + 1), Write.printf_2sp] }
    exact ⟨ws, by rw [hws]; simp⟩

theorem iteration_prefixFirst (o : Options) (hn : o.line_numbers = true) (out : List Write)
    (n : Nat) (c p : Int) (g : Globals) (h : PrefixFirst out n g) :
    PrefixFirst out n (iteration o c p g).2 := by
  rcases h with ⟨hout, hcount, hbof⟩ | ⟨rest, hrest⟩
  · obtain ⟨hz, hnz⟩ := iteration_begin_of_file o hn c p g hbof
    by_cases h0 : pre o c = 0
    · rw [hz h0]
      exact Or.inl ⟨hout, hcount, hbof⟩
    · obtain ⟨rest, hrest⟩ := hnz h0
      exact Or.inr ⟨rest, by rw [hrest, hout, hcount]⟩
  · obtain ⟨ws, hws⟩ := iteration_appends o c p g
    exact Or.inr ⟨rest ++ ws, by rw [hws, hrest]; simp⟩

theorem feed_prefixFirst (o : Options) (hn : o.line_numbers = true) (out : List Write)
    (n : Nat) (cs : List Int) :
    ∀ (p : Int) (g : Globals), PrefixFirst out n g → PrefixFirst out n (feed o (p, g) cs).2 := by
  induction cs with
  | nil => intro p g h; exact h
  | cons c cs ih =>
    intro p g h
    exact ih _ _ (iteration_prefixFirst o hn out n c p g h)

theorem feed_written (o : Options) (out : List Write) (cs : List Int) :
    ∀ (p : Int) (g : Globals), (∃ rest, g.stdout = out ++ rest ∧ rest ≠ []) →
      ∃ rest, (feed o (p, g) cs).2.stdout = out ++ rest ∧ rest ≠ [] := by
  induction cs with
  | nil => intro p g h; exact h
  | cons c cs ih =>
    intro p g h
    obtain ⟨rest, hrest, hne⟩ := h
    obtain ⟨ws, hws⟩ := iteration_appends o c p g
    exact ih (iteration o c p g).1 (iteration o c p g).2
      ⟨rest ++ ws, by rw [hws, hrest, List.append_assoc], by simp [hne]⟩

theorem feed_writes_of_survivor (o : Options) (hn : o.line_numbers = true) (cs : List Int) :
    ∀ (p : Int) (g : Globals), g.begin_of_file = true → (∃ c ∈ cs, pre o c ≠ 0) →
      ∃ rest, (feed o (p, g) cs).2.stdout = g.stdout ++ rest ∧ rest ≠ [] := by
  induction cs with
  | nil => intro p g _ h; obtain ⟨c, hc, -⟩ := h; cases hc
  | cons c cs ih =>
    intro p g hbof h
    obtain ⟨hz, hnz⟩ := iteration_begin_of_file o hn c p g hbof
    have hstep : feed o (p, g) (c :: cs)
        = feed o ((iteration o c p g).1, (iteration o c p g).2) cs := rfl
    rw [hstep]
    by_cases h0 : pre o c = 0
    · obtain ⟨d, hd, hd0⟩ := h
      have hmem : d ∈ cs := by
        rcases List.mem_cons.1 hd with rfl | hd
        · exact absurd h0 hd0
        · exact hd
      have := ih (iteration o c p g).1 (iteration o c p g).2 (by rw [hz h0]; exact hbof)
        ⟨d, hmem, hd0⟩
      rw [hz h0] at this ⊢
      exact this
    · obtain ⟨rest, hrest⟩ := hnz h0
      exact feed_written o g.stdout cs _ _ ⟨_, hrest, by simp⟩

/-- With line numbering enabled, whatever one call of `filter` writes begins
with the prefix carrying the next line number, and something is written as
soon as a byte read before the first 0xFF leaves the character-only stages as
a character other than NUL. -/
theorem filter_prefixFirst (o : Options) (hn : o.line_numbers = true) (g : Globals)
    (file : List Byte) :
    ∃ seg, (filter o g file).stdout = g.stdout ++ seg ∧
      (seg = [] ∨ ∃ rest,
        seg = Write.printf_6i (g.line_count + 1) :: Write.printf_2sp :: rest) ∧
      ((∃ b ∈ file.takeWhile (fun b => decide (b ≠ 255)), pre o (toChar (b.val : Int)) ≠ 0) →
        seg ≠ []) := by
  have h := feed_prefixFirst o hn g.stdout g.line_count (0 :: chars file) 0
    { g with begin_of_file := true } (Or.inl ⟨rfl, rfl, rfl⟩)
  have hs : (∃ b ∈ file.takeWhile (fun b => decide (b ≠ 255)), pre o (toChar (b.val : Int)) ≠ 0) →
      ∃ rest, (filter o g file).stdout = g.stdout ++ rest ∧ rest ≠ [] := by
    intro hb
    obtain ⟨b, hb, hb0⟩ := hb
    have := feed_writes_of_survivor o hn (0 :: chars file) 0 { g with begin_of_file := true } rfl
      ⟨toChar (b.val : Int), by
        rw [chars_eq_takeWhile]
        exact List.mem_cons_of_mem _ (List.mem_map.2 ⟨b, hb, rfl⟩), hb0⟩
    rw [← filter_eq_feed] at this
    exact this
  rw [← filter_eq_feed] at h
  rcases h with ⟨hout, -, -⟩ | ⟨rest, hrest⟩
  · refine ⟨[], by rw [hout, List.append_nil], Or.inl rfl, ?_⟩
    intro hb
    obtain ⟨rest, hrest, hne⟩ := hs hb
    rw [hout] at hrest
    exact absurd (List.self_eq_append_right.1 hrest) hne
  · exact ⟨_, hrest, Or.inr ⟨rest, rfl⟩, fun _ => by simp⟩

theorem filterAll_append (o : Options) (g : Globals) (a b : List (List Byte)) :
    filterAll o g (a ++ b) = filterAll o (filterAll o g a) b := by
  simp [filterAll, List.foldl_append]

/-- C10: over a run of `filter` on several inputs with line numbering enabled, started with a
fresh counter, the prefixes written carry the consecutive numbers 1, 2, 3, ... in order (the
counter is not reset between files); what is written for each file begins with the prefix
carrying the next number (the beginning-of-file flag is set again for every file), whatever
the previous file ended with; and something is written for a file as soon as one of its bytes
(before the first 0xFF) survives the delete and replace stages. -/
theorem line_counter_across_files (o : Options) (files : List (List Byte))
    (hn : o.line_numbers = true) :
    prefixNumbers (filterAll o {} files).stdout
        = List.range' 1 (filterAll o {} files).line_count ∧
    ∀ (before : List (List Byte)) (file : List Byte) (after : List (List Byte)),
      files = before ++ file :: after →
      ∃ seg, (filterAll o {} (before ++ [file])).stdout = (filterAll o {} before).stdout ++ seg ∧
        (seg = [] ∨ ∃ rest,
          seg = Write.printf_6i ((filterAll o {} before).line_count + 1)
                  :: Write.printf_2sp :: rest) ∧
        ((∃ b ∈ file.takeWhile (fun b => decide (b ≠ 255)), pre o (toChar (b.val : Int)) ≠ 0) →
          seg ≠ []) := by
  refine ⟨filterAll_consecutive o files {} rfl, ?_⟩
  intro before file after _
  rw [filterAll_append]
  exact filter_prefixFirst o hn (filterAll o {} before) file

/-- Witness for `line_counter_across_files`: two files "a" and "b", the first without a final
newline; the output is "     1  a     2  b". -/
theorem line_counter_across_files_witness :
    (prefixNumbers (filterAll { line_numbers := true } {} [[97], [98]]).stdout
        = List.range' 1 (filterAll { line_numbers := true } {} [[97], [98]]).line_count ∧
      ∀ (before : List (List Byte)) (file : List Byte) (after : List (List Byte)),
        [[97], [98]] = before ++ file :: after →
        ∃ seg, (filterAll { line_numbers := true } {} (before ++ [file])).stdout
            = (filterAll { line_numbers := true } {} before).stdout ++ seg ∧
          (seg = [] ∨ ∃ rest,
            seg = Write.printf_6i ((filterAll { line_numbers := true } {} before).line_count + 1)
                    :: Write.printf_2sp :: rest) ∧
          ((∃ b ∈ file.takeWhile (fun b => decide (b ≠ 255)),
              pre { line_numbers := true } (toChar (b.val : Int)) ≠ 0) → seg ≠ [])) ∧
    bytes (filterAll { line_numbers := true } {} [[97], [98]]).stdout
      = [32, 32, 32, 32, 32, 49, 32, 32, 97, 32, 32, 32, 32, 32, 50, 32, 32, 98] :=
  ⟨line_counter_across_files { line_numbers := true } [[97], [98]] rfl, by decide⟩

/-! ## C3, C4, C5, C7: the byte 0xFF ends the run -/

/-- C3 (failing input): with only line numbering enabled, the input "a\xFFb\n" (no NUL byte,
one line) is cut at the byte 0xFF: the output is "     1  a", while the numbered line is
"     1  a\xFFb\n". -/
theorem line_numbering_stops_at_FF :
    output { line_numbers := true } [97, 255, 98, 10] = [32, 32, 32, 32, 32, 49, 32, 32, 97] ∧
    numberLines 1 (splitLines [97, 255, 98, 10])
      = [32, 32, 32, 32, 32, 49, 32, 32, 97, 255, 98, 10] := by decide

/-- C4 (failing input): with only tab expansion enabled and width 4, the input "\t\xFFx" (no
NUL byte) is cut at the byte 0xFF: the output is four spaces, while the input with its tab
replaced by four spaces is "    \xFFx". -/
theorem tab_expansion_stops_at_FF :
    numSpaces (some [52]) = 4 ∧
    output { tabs := true, tabs_args := some [52] } [9, 255, 120] = [32, 32, 32, 32] ∧
    expandTabs 4 [9, 255, 120] = [32, 32, 32, 32, 255, 120] := by decide

/-- C5 (failing input): with only delete='a' enabled, the input "b\xFFab" (no NUL byte) is cut
at the byte 0xFF: the output is "b", while the input without its 'a' is "b\xFFb". -/
theorem delete_stops_at_FF :
    output { delete := true, delete_args := [97] } [98, 255, 97, 98] = [98] ∧
    ([98, 255, 97, 98] : List Byte).filter (fun b => decide (toChar (b.val : Int) ≠ 97))
      = [98, 255, 98] := by decide

/-- C7 (failing input): with only replace 'a'->'b' enabled, the input "a\xFFa" (no NUL byte,
three bytes) is cut at the byte 0xFF: the output is the single byte "b", not three bytes. -/
theorem replace_stops_at_FF :
    output { replace := true, replace_args := [97, 98] } [97, 255, 97] = [98] ∧
    (output { replace := true, replace_args := [97, 98] } [97, 255, 97]).length
      ≠ ([97, 255, 97] : List Byte).length := by decide

/-! ## C11: line numbering runs before blank-line removal -/

/-- C11: with line numbering and blank-line removal both enabled, a character that blank-line
removal suppresses (a newline arriving while `previous` is a newline) has had its line-number
prefix written and the counter incremented by the line-numbering stage before: the pass ends
with the character suppressed, the prefix appended to standard output and the counter one
higher.  E.g. "a\n\nb" yields "     1  a\n     2       3  b". -/
theorem numbering_before_blank_line_removal (o : Options) (reader previous : Int) (g : Globals)
    (hn : o.line_numbers = true) (hb : o.blank_lines = true)
    (hsup : removeBlankLinesAlpha (pre o reader) previous ≠ pre o reader) :
    (stages o reader previous g).1 = 0 ∧
    (countLinesAlpha (pre o reader) previous g).2
      = { line_count := g.line_count + 1, begin_of_file := false,
          stdout := g.stdout ++ [Write.printf_6i (g.line_count + 1), Write.printf_2sp] } ∧
    (iteration o reader previous g).2
      = { line_count := g.line_count + 1, begin_of_file := false,
          stdout := g.stdout ++ [Write.printf_6i (g.line_count + 1), Write.printf_2sp] } ∧
    output { line_numbers := true, blank_lines := true } [97, 10, 10, 98]
      = [32, 32, 32, 32, 32, 49, 32, 32, 97, 10,
         32, 32, 32, 32, 32, 50, 32, 32,
         32, 32, 32, 32, 32, 51, 32, 32, 98] := by
  have hc : pre o reader = 10 ∧ previous = 10 := by
    unfold removeBlankLinesAlpha at hsup
    by_cases h : pre o reader = 10 ∧ previous = 10
    · exact h
    · rw [if_neg h] at hsup
      exact absurd rfl hsup
  obtain ⟨hc1, hc2⟩ := hc
  have hcount : countLinesAlpha (pre o reader) previous g
      = (pre o reader,
          { line_count := g.line_count + 1, begin_of_file := false,
            stdout := g.stdout ++ [Write.printf_6i (g.line_count + 1), Write.printf_2sp] }) := by
    simp [countLinesAlpha, hc1, hc2]
  have hst : stages o reader previous g
      = (0, (if o.tabs then 0 else previous),
          { line_count := g.line_count + 1, begin_of_file := false,
            stdout := g.stdout ++ [Write.printf_6i (g.line_count + 1), Write.printf_2sp] }) := by
    rw [stages_eq]
    simp only [hn, hb, if_true, hcount]
    by_cases ht : o.tabs = true
    · simp [ht, removeBlankLinesAlpha, hc1, hc2, expandTabsAlpha]
    · simp [ht, removeBlankLinesAlpha, hc1, hc2]
  refine ⟨by rw [hst], by rw [hcount], ?_, by decide⟩
  unfold iteration
  rw [hst]
  simp [emit]

/-- Witness for `numbering_before_blank_line_removal`: a newline arriving after a newline. -/
theorem numbering_before_blank_line_removal_witness :
    (stages { line_numbers := true, blank_lines := true } 10 10 {}).1 = 0 ∧
    (countLinesAlpha (pre { line_numbers := true, blank_lines := true } 10) 10 {}).2
      = { line_count := 1, begin_of_file := false,
          stdout := [Write.printf_6i 1, Write.printf_2sp] } ∧
    (iteration { line_numbers := true, blank_lines := true } 10 10 {}).2
      = { line_count := 1, begin_of_file := false,
          stdout := [Write.printf_6i 1, Write.printf_2sp] } ∧
    output { line_numbers := true, blank_lines := true } [97, 10, 10, 98]
      = [32, 32, 32, 32, 32, 49, 32, 32, 97, 10,
         32, 32, 32, 32, 32, 50, 32, 32,
         32, 32, 32, 32, 32, 51, 32, 32, 98] :=
  numbering_before_blank_line_removal { line_numbers := true, blank_lines := true } 10 10 {}
    rfl rfl (by decide)

/-! ## C12: stream termination -/

theorem whileLoop_eq_filterLoop (o : Options) (file : List Byte) :
    ∀ (fuel : Nat) (reader previous : Int) (g : Globals), file.length + 2 ≤ fuel →
      whileLoop o fuel reader previous g { unread := file }
        = some (filterLoop o reader previous g file) := by
  induction file with
  | nil =>
    intro fuel reader previous g hfuel
    obtain ⟨n, rfl⟩ : ∃ n, fuel = n + 2 := ⟨fuel - 2, by simp at hfuel; omega⟩
    by_cases h : reader = EOF
    · simp [whileLoop, filterLoop, feof, h]
    · simp [whileLoop, filterLoop, feof, fgetc, h]
  | cons b rest ih =>
    intro fuel reader previous g hfuel
    obtain ⟨n, rfl⟩ : ∃ n, fuel = n + 1 := ⟨fuel - 1, by simp at hfuel; omega⟩
    have hn : rest.length + 2 ≤ n := by simp at hfuel; omega
    by_cases h : reader = EOF
    · simp [whileLoop, filterLoop, feof, h]
    · rw [whileLoop, filterLoop]
      simp only [feof, Bool.false_eq_true, if_false, h, fgetc]
      exact ih n _ _ _ hn

/-- C12: run statement by statement on any finite input, with any options, `filter` ends
(enough fuel gives a result), and its result is that of the loop body applied to the initial
`reader` and then to the `char` of each byte read, in order, up to the first one equal to
`EOF`, and to nothing else: the `EOF` that `fgetc` returns at the end of the stream is not
among the values passed to the stages, and once the stream is exhausted the state after the
last pass is returned as it is. -/
theorem stream_termination (o : Options) (g : Globals) (file : List Byte) (fuel : Nat)
    (hfuel : file.length + 2 ≤ fuel) :
    filterOn o fuel g { unread := file }
      = some (feed o (0, { g with begin_of_file := true }) (0 :: chars file)).2 ∧
    filterOn o fuel g { unread := file } = some (filter o g file) ∧
    (∀ c ∈ (0 : Int) :: chars file, c ≠ EOF) ∧
    (∀ c ∈ chars file, ∃ b ∈ file, c = toChar (b.val : Int)) ∧
    (∀ (n : Nat) (reader previous : Int) (g₁ : Globals), reader ≠ EOF →
      whileLoop o (n + 2) reader previous g₁ { unread := [] }
        = some (iteration o reader previous g₁).2) := by
  have hrun : filterOn o fuel g { unread := file } = some (filter o g file) := by
    unfold filterOn filter
    exact whileLoop_eq_filterLoop o file fuel _ _ _ hfuel
  refine ⟨by rw [hrun, filter_eq_feed], hrun, ?_, ?_, ?_⟩
  · intro c hc
    rcases List.mem_cons.1 hc with rfl | hc
    · decide
    · simpa using (List.mem_takeWhile_imp hc)
  · intro c hc
    have hm := List.takeWhile_subset _ hc
    rw [List.mem_map] at hm
    obtain ⟨b, hb, rfl⟩ := hm
    exact ⟨b, hb, rfl⟩
  · intro n reader previous g₁ h
    simp [whileLoop, feof, fgetc, h]

/-- Witness for `stream_termination`: the input "ab" with fuel 4. -/
theorem stream_termination_witness :
    filterOn {} 4 {} { unread := [97, 98] }
      = some (feed {} (0, { ({} : Globals) with begin_of_file := true })
          (0 :: chars [97, 98])).2 ∧
    filterOn {} 4 {} { unread := [97, 98] } = some (filter {} {} [97, 98]) ∧
    (∀ c ∈ (0 : Int) :: chars [97, 98], c ≠ EOF) ∧
    (∀ c ∈ chars [97, 98], ∃ b ∈ ([97, 98] : List Byte), c = toChar (b.val : Int)) ∧
    (∀ (n : Nat) (reader previous : Int) (g₁ : Globals), reader ≠ EOF →
      whileLoop {} (n + 2) reader previous g₁ { unread := [] }
        = some (iteration {} reader previous g₁).2) :=
  stream_termination {} {} [97, 98] 4 (by decide)

/-! ## C13, C14: returns from inside the option loop -/

set_option maxRecDepth 100000

theorem optionLoop_continues (before : List Getopt) (h : Continues before) (r : Getopt)
    (after : List Getopt) (hr : r.key = 104 ∨ r.key = 63 ∨ r.key = 58) :
    ∀ o : Options, optionLoop o (before ++ r :: after) = optionLoop {} [r] := by
  induction before with
  | nil =>
    intro o
    rcases hr with hr | hr | hr <;> simp [optionLoop, hr]
  | cons q qs ih =>
    intro o
    obtain ⟨h1, h2, h3, h4⟩ := h q (List.mem_cons_self _ _)
    have hqs : Continues qs := fun x hx => h x (List.mem_cons_of_mem _ hx)
    rw [List.cons_append, optionLoop]
    simp only [h1, h2, h3, h4, if_false]
    split_ifs <;> exact ih hqs _

/-- C13: whenever the option loop gets from `getopt_long` the report of an unrecognised option
(return value '?', the character in `optopt`), wherever in the argument list it stands, the
whole standard output of `main` is the line "Unknown option: c", nothing is filtered
(whatever the input streams hold), and `main` returns 0. -/
theorem unknown_option_only_diagnostic (before after : List Getopt) (a : Option (List Int))
    (c : Int) (stream : List Byte) (more : List (List Byte)) (hbefore : Continues before) :
    optionLoop {} (before ++ { key := 63, optarg := a, optopt := c } :: after)
      = .returned (ascii "Unknown option: " ++ [toUChar c] ++ [10]) 0 ∧
    main (before ++ { key := 63, optarg := a, optopt := c } :: after) stream more
      = (ascii "Unknown option: " ++ [toUChar c] ++ [10], 0) := by
  have h := optionLoop_continues before hbefore { key := 63, optarg := a, optopt := c } after
    (Or.inr (Or.inl rfl)) {}
  have h1 : optionLoop {} [({ key := 63, optarg := a, optopt := c } : Getopt)]
      = .returned (ascii "Unknown option: " ++ [toUChar c] ++ [10]) 0 := by
    simp [optionLoop]
  refine ⟨by rw [h, h1], ?_⟩
  unfold main
  rw [h, h1]

/-- Witness for `unknown_option_only_diagnostic`: the arguments `-n file -z`, where the line
is "Unknown option: z". -/
theorem unknown_option_only_diagnostic_witness :
    (optionLoop {} ([{ key := 110 }, { key := 1, optarg := some [102] }]
        ++ { key := 63, optarg := none, optopt := 122 } :: [])
      = .returned (ascii "Unknown option: " ++ [toUChar 122] ++ [10]) 0 ∧
    main ([{ key := 110 }, { key := 1, optarg := some [102] }]
        ++ { key := 63, optarg := none, optopt := 122 } :: []) [97, 10] []
      = (ascii "Unknown option: " ++ [toUChar 122] ++ [10], 0)) ∧
    ascii "Unknown option: " ++ [toUChar 122] ++ [10] = ascii "Unknown option: z\n" :=
  ⟨unknown_option_only_diagnostic [{ key := 110 }, { key := 1, optarg := some [102] }] []
    none 122 [97, 10] [] (by
      intro r hr
      simp only [List.mem_cons, List.mem_singleton, List.not_mem_nil, or_false] at hr
      rcases hr with rfl | rfl <;> decide), by decide⟩

/-- C14 (counterexample): for the single argument `-h` the output of `main` is not the
ten-line usage text; it is twelve lines, 536 bytes, against 533. -/
theorem help_is_not_ten_lines :
    (main [{ key := 104 }] [] []).1 ≠ usageTenLines ∧
    (main [{ key := 104 }] [] []).1.length = 536 ∧ usageTenLines.length = 533 ∧
    ((main [{ key := 104 }] [] []).1.filter fun b => decide (b = 10)).length = 12 := by
  decide

/-- C14 (amended): whenever the option loop gets the help flag from `getopt_long`, the whole
standard output of `main` is the usage text as `dumpHelp` writes it, namely the line
"Usage: filter [options] [file1 file2 ...] " (ending in a space), an empty line, "Options:",
the eight option lines, and an empty line; nothing is filtered and `main` returns 0. -/
theorem help_prints_usage (before after : List Getopt) (a : Option (List Int)) (c : Int)
    (stream : List Byte) (more : List (List Byte)) (hbefore : Continues before) :
    main (before ++ { key := 104, optarg := a, optopt := c } :: after) stream more
      = (usageAsWritten, 0) := by
  have h := optionLoop_continues before hbefore { key := 104, optarg := a, optopt := c } after
    (Or.inl rfl) {}
  have h1 : optionLoop {} [({ key := 104, optarg := a, optopt := c } : Getopt)]
      = .returned dumpHelp 0 := by
    simp [optionLoop]
  have h2 : dumpHelp = usageAsWritten := by decide
  unfold main
  rw [h, h1, h2]

/-- Witness for `help_prints_usage`: the arguments `-n -h`. -/
theorem help_prints_usage_witness :
    main ([{ key := 110 }] ++ { key := 104, optarg := none, optopt := 0 } :: []) [97] []
      = (usageAsWritten, 0) :=
  help_prints_usage [{ key := 110 }] [] none 0 [97] [] (by
    intro r hr
    simp only [List.mem_singleton] at hr
    subst hr
    decide)

/-! ## C15: line starts -/

theorem lineScan_append (a b : List Write) :
    ∀ s, lineScan s (a ++ b) = (lineScan s a).bind fun s₁ => lineScan s₁ b := by
  induction a with
  | nil => intro s; rfl
  | cons w ws ih =>
    intro s
    cases w with
    | printf_6i n => exact ih false
    | printf_2sp =>
      cases s
      · exact ih false
      · rfl
    | putc c =>
      cases s
      · exact ih (decide (c = 10))
      · rfl

/-- One pass of the loop body, line numbering on and tab expansion off, keeps
the line starts numbered: when the next thing written starts a line, either
the beginning-of-file flag is set or `previous` is a newline, so the prefix
comes first. -/
theorem iteration_lineScan (o : Options) (hn : o.line_numbers = true) (ht : o.tabs = false)
    (c p : Int) (g : Globals) (s : Bool)
    (hs : s = true → g.begin_of_file = true ∨ p = 10) :
    ∃ ws s₁, (iteration o c p g).2.stdout = g.stdout ++ ws ∧ lineScan s ws = some s₁ ∧
      (s₁ = true → (iteration o c p g).2.begin_of_file = true ∨ (iteration o c p g).1 = 10) := by
  rw [iteration_eq_afterCount]
  simp only [hn, if_true]
  by_cases h0 : pre o c = 0
  · refine ⟨[], s, ?_, rfl, ?_⟩
    · rw [h0, countLinesAlpha_zero, afterCount_zero, List.append_nil]
    · intro hs1
      have h1 : (afterCount o 0 p g).1 = p := by
        by_cases hb : o.blank_lines = true <;> simp [afterCount, ht, hb, removeBlankLinesAlpha, emit]
      rw [h0, countLinesAlpha_zero, afterCount_zero, h1]
      exact hs hs1
  · by_cases hf : g.line_count = 0 ∨ p = 10 ∨ g.begin_of_file = true
    · have hc : countLinesAlpha (pre o c) p g
          = (pre o c,
              { line_count := g.line_count + 1, begin_of_file := false,
                stdout := g.stdout ++ [Write.printf_6i (g.line_count + 1), Write.printf_2sp] }) := by
        simp [countLinesAlpha, h0, hf]
      rw [hc]
      by_cases hsup : o.blank_lines = true ∧ pre o c = 10 ∧ p = 10
      · refine ⟨[Write.printf_6i (g.line_count + 1), Write.printf_2sp], false, ?_, rfl, ?_⟩
        · simp [afterCount, ht, hsup.1, removeBlankLinesAlpha, hsup.2.1, hsup.2.2, emit]
        · intro h; cases h
      · have hr : (if o.blank_lines then removeBlankLinesAlpha (pre o c) p else pre o c) = pre o c := by
          by_cases hb : o.blank_lines = true
          · have : ¬ (pre o c = 10 ∧ p = 10) := fun h => hsup ⟨hb, h⟩
            simp [hb, removeBlankLinesAlpha, this]
          · simp [hb]
        refine ⟨[Write.printf_6i (g.line_count + 1), Write.printf_2sp, Write.putc (pre o c)],
          decide (pre o c = 10), ?_, ?_, ?_⟩
        · simp [afterCount, ht, hr, emit, h0]
        · simp [lineScan]
        · intro h
          right
          simp only [afterCount, ht, hr, emit, h0, Bool.false_eq_true, if_false, ne_eq,
            not_false_eq_true, if_true]
          simpa using h
    · have hc : countLinesAlpha (pre o c) p g = (pre o c, g) := by
        simp [countLinesAlpha, hf]
      have hp : p ≠ 10 := fun h => hf (Or.inr (Or.inl h))
      have hbof : g.begin_of_file ≠ true := fun h => hf (Or.inr (Or.inr h))
      have hsf : s = false := by
        cases s
        · rfl
        · rcases hs rfl with h | h
          · exact absurd h hbof
          · exact absurd h hp
      have hr : (if o.blank_lines then removeBlankLinesAlpha (pre o c) p else pre o c) = pre o c := by
        by_cases hb : o.blank_lines = true
        · simp [hb, removeBlankLinesAlpha, hp]
        · simp [hb]
      rw [hc]
      refine ⟨[Write.putc (pre o c)], decide (pre o c = 10), ?_, ?_, ?_⟩
      · simp [afterCount, ht, hr, emit, h0]
      · simp [lineScan, hsf]
      · intro h
        right
        simp only [afterCount, ht, hr, emit, h0, Bool.false_eq_true, if_false, ne_eq,
          not_false_eq_true, if_true]
        simpa using h

theorem feed_lineScan (o : Options) (hn : o.line_numbers = true) (ht : o.tabs = false)
    (cs : List Int) :
    ∀ (p : Int) (g : Globals) (s : Bool), (s = true → g.begin_of_file = true ∨ p = 10) →
      ∃ ws s₁, (feed o (p, g) cs).2.stdout = g.stdout ++ ws ∧ lineScan s ws = some s₁ := by
  induction cs with
  | nil => intro p g s _; exact ⟨[], s, (List.append_nil _).symm, rfl⟩
  | cons c cs ih =>
    intro p g s hs
    have hstep : feed o (p, g) (c :: cs)
        = feed o ((iteration o c p g).1, (iteration o c p g).2) cs := rfl
    obtain ⟨w₁, s₁, hw₁, hl₁, hs₁⟩ := iteration_lineScan o hn ht c p g s hs
    obtain ⟨w₂, s₂, hw₂, hl₂⟩ := ih (iteration o c p g).1 (iteration o c p g).2 s₁ hs₁
    refine ⟨w₁ ++ w₂, s₂, by rw [hstep, hw₂, hw₁, List.append_assoc], ?_⟩
    rw [lineScan_append, hl₁]
    exact hl₂

/-- Line starts without tab expansion: with line numbering enabled and tab
expansion off, whatever the other options and the input, every line of what
one call of `filter` writes begins with a line-number prefix. -/
theorem line_starts_numbered_of_no_tabs (o : Options) (hn : o.line_numbers = true)
    (ht : o.tabs = false) (g : Globals) (file : List Byte) :
    ∃ seg, (filter o g file).stdout = g.stdout ++ seg ∧ lineStartsNumbered seg = true := by
  obtain ⟨ws, s₁, hw, hl⟩ := feed_lineScan o hn ht (0 :: chars file) 0
    { g with begin_of_file := true } true (fun _ => Or.inl rfl)
  rw [← filter_eq_feed] at hw
  exact ⟨ws, hw, by rw [lineStartsNumbered, hl]; rfl⟩

/-- C15 (failing input): with line numbering, delete='x' and tab expansion enabled, the input
"a\nxb" (no NUL byte) yields "     1  a\nb": the second line of the output has no prefix,
because the deleted 'x' makes the tab-expansion block reset `previous`, so 'b' is not seen
to start a line.  Without tab expansion the same input yields "     1  a\n     2  b". -/
theorem line_start_lost_after_delete_with_tabs :
    output { line_numbers := true, delete := true, delete_args := [120], tabs := true }
        [97, 10, 120, 98]
      = [32, 32, 32, 32, 32, 49, 32, 32, 97, 10, 98] ∧
    lineStartsNumbered
      (filter { line_numbers := true, delete := true, delete_args := [120], tabs := true } {}
        [97, 10, 120, 98]).stdout = false ∧
    output { line_numbers := true, delete := true, delete_args := [120] } [97, 10, 120, 98]
      = [32, 32, 32, 32, 32, 49, 32, 32, 97, 10, 32, 32, 32, 32, 32, 50, 32, 32, 98] ∧
    lineStartsNumbered
      (filter { line_numbers := true, delete := true, delete_args := [120] } {}
        [97, 10, 120, 98]).stdout = true := by
  decide

/-! ## C16: tab expansion and the other filters -/

theorem feed_congr_mem (o₁ o₂ : Options) (cs : List Int)
    (hit : ∀ c ∈ cs, ∀ p g, iteration o₁ c p g = iteration o₂ c p g) :
    ∀ pg : Int × Globals, feed o₁ pg cs = feed o₂ pg cs := by
  induction cs with
  | nil => intro pg; rfl
  | cons c cs ih =>
    intro pg
    have h1 : feed o₁ pg (c :: cs) = feed o₁ (iteration o₁ c pg.1 pg.2) cs := rfl
    have h2 : feed o₂ pg (c :: cs) = feed o₂ (iteration o₂ c pg.1 pg.2) cs := rfl
    rw [h1, h2, hit c (List.mem_cons_self _ _),
      ih fun d hd => hit d (List.mem_cons_of_mem _ hd)]

/-- Two option sets whose loop bodies agree on the characters read from `file`
give the same run of `filter` on it. -/
theorem filter_congr_on (o₁ o₂ : Options) (g : Globals) (file : List Byte)
    (hit : ∀ c ∈ (0 : Int) :: chars file, ∀ p g, iteration o₁ c p g = iteration o₂ c p g) :
    filter o₁ g file = filter o₂ g file := by
  rw [filter_eq_feed, filter_eq_feed, feed_congr_mem o₁ o₂ _ hit]

theorem chars_range (file : List Byte) :
    ∀ c ∈ (0 : Int) :: chars file, -128 ≤ c ∧ c ≤ 127 := by
  intro c hc
  rcases List.mem_cons.1 hc with rfl | hc
  · decide
  · have hm := List.takeWhile_subset _ hc
    rw [List.mem_map] at hm
    obtain ⟨b, -, rfl⟩ := hm
    exact toChar_range b

theorem countLinesAlpha_fst (c p : Int) (g : Globals) : (countLinesAlpha c p g).1 = c := by
  unfold countLinesAlpha
  split <;> rfl

theorem stages_off_fst (o : Options) (c p : Int) (g : Globals) :
    (stages { o with tabs := false } c p g).1
      = if o.blank_lines then removeBlankLinesAlpha (pre o c) p else pre o c := by
  have hp : pre { o with tabs := false } c = pre o c := rfl
  rw [stages_eq, hp]
  generalize pre o c = x
  by_cases hn : o.line_numbers = true
  · simp only [hn, if_true, countLinesAlpha_fst, Bool.false_eq_true, if_false]
  · simp [hn]

theorem tabFree_of_pre (o : Options) (cs : List Int) (h9 : ∀ c ∈ cs, pre o c ≠ 9)
    (hz : (o.line_numbers = false ∧ o.blank_lines = false) ∨
      (o.blank_lines = false ∧ ∀ c ∈ cs, pre o c ≠ 0)) :
    ∀ (p : Int) (g : Globals), tabFree { o with tabs := false } p g cs = true := by
  have hb : o.blank_lines = false := by
    rcases hz with h | h
    · exact h.2
    · exact h.1
  induction cs with
  | nil => intro p g; rfl
  | cons c cs ih =>
    intro p g
    have hr : (stages { o with tabs := false } c p g).1 = pre o c := by
      rw [stages_off_fst]; simp [hb]
    have hrest := ih (fun d hd => h9 d (List.mem_cons_of_mem _ hd))
      (hz.imp id fun h => ⟨h.1, fun d hd => h.2 d (List.mem_cons_of_mem _ hd)⟩)
      (iteration { o with tabs := false } c p g).1 (iteration { o with tabs := false } c p g).2
    have hc9 := h9 c (List.mem_cons_self _ _)
    simp only [tabFree, hr, hrest, Bool.and_true, Bool.and_eq_true, Bool.or_eq_true,
      decide_eq_true_eq, Bool.not_eq_true']
    refine ⟨hc9, ?_⟩
    rcases hz with h | h
    · exact Or.inr h
    · exact Or.inl (Or.inl (h.2 c (List.mem_cons_self _ _)))

/-- Runs that give tab expansion nothing to do: no character is a tab once
past the delete, replace and case stages, and either neither line numbering
nor blank-line removal is enabled, or blank-line removal is off and no
character read is suppressed by those stages (line numbering on ordinary
text, for one). -/
theorem noTabWork_of_pre (o : Options) (g : Globals) (file : List Byte)
    (h9 : ∀ c ∈ (0 : Int) :: chars file, pre o c ≠ 9)
    (hz : (o.line_numbers = false ∧ o.blank_lines = false) ∨
      (o.blank_lines = false ∧ ∀ c ∈ chars file, pre o c ≠ 0)) :
    noTabWork o g file = true := by
  have hb : o.blank_lines = false := by
    rcases hz with h | h
    · exact h.2
    · exact h.1
  have hr : (stages { o with tabs := false } 0 0 { g with begin_of_file := true }).1
      = pre o 0 := by
    rw [stages_off_fst]; simp [hb]
  have hrest := tabFree_of_pre o (chars file) (fun c hc => h9 c (List.mem_cons_of_mem _ hc)) hz
    (iteration { o with tabs := false } 0 0 { g with begin_of_file := true }).1
    (iteration { o with tabs := false } 0 0 { g with begin_of_file := true }).2
  have h90 := h9 0 (List.mem_cons_self _ _)
  simp only [noTabWork, tabFree, hr, hrest, Bool.and_true, Bool.and_eq_true, Bool.or_eq_true,
    decide_eq_true_eq, Bool.not_eq_true']
  exact ⟨h90, Or.inl (Or.inr (by decide))⟩

theorem cstr_range (s : List Int) (hs : CharString s) (i : Nat) :
    -128 ≤ cstr s i ∧ cstr s i ≤ 127 := by
  unfold cstr
  by_cases hi : i < s.length
  · rw [List.getD_eq_getElem _ _ hi]
    exact hs _ (List.getElem_mem hi)
  · rw [List.getD_eq_default _ _ (Nat.le_of_not_lt hi)]
    decide

theorem toLowerAlpha_char (c : Int) (hc : -128 ≤ c ∧ c ≤ 127) :
    toLowerAlpha c = if 65 ≤ c ∧ c ≤ 90 then c + 32 else c := by
  have hl : c ≥ 65 ∨ c ≤ 90 := by omega
  simp only [toLowerAlpha, hl, if_true, tolower, toChar]
  split <;> omega

theorem toUpperAlpha_range (c : Int) (hc : -128 ≤ c ∧ c ≤ 127) :
    -128 ≤ toUpperAlpha c ∧ toUpperAlpha c ≤ 127 := by
  rw [toUpperAlpha_char c hc]
  split <;> omega

/-- The character that reaches the case stages is a `char` value. -/
theorem before_case_range (o : Options) (hs : CharString o.replace_args) (c : Int)
    (hc : -128 ≤ c ∧ c ≤ 127) :
    -128 ≤ (if o.replace then replaceAlpha (if o.delete then deleteAlpha c o.delete_args else c)
        o.replace_args else (if o.delete then deleteAlpha c o.delete_args else c)) ∧
    (if o.replace then replaceAlpha (if o.delete then deleteAlpha c o.delete_args else c)
        o.replace_args else (if o.delete then deleteAlpha c o.delete_args else c)) ≤ 127 := by
  have hd : -128 ≤ (if o.delete then deleteAlpha c o.delete_args else c) ∧
      (if o.delete then deleteAlpha c o.delete_args else c) ≤ 127 := by
    unfold deleteAlpha
    split_ifs <;> omega
  have hy := cstr_range o.replace_args hs 1
  generalize (if o.delete then deleteAlpha c o.delete_args else c) = d at hd ⊢
  unfold replaceAlpha
  split_ifs <;> first | exact hy | exact hd

theorem pre_lower_not_upper (o : Options) (hl : o.lower = true) (hs : CharString o.replace_args)
    (c : Int) (hc : -128 ≤ c ∧ c ≤ 127) : ¬ (65 ≤ pre o c ∧ pre o c ≤ 90) := by
  have hb := before_case_range o hs c hc
  unfold pre
  simp only [hl, if_true]
  by_cases hu : o.upper = true
  · simp only [hu, if_true]
    rw [toLowerAlpha_char _ (toUpperAlpha_range _ hb)]
    split <;> omega
  · simp only [hu, Bool.false_eq_true, if_false]
    rw [toLowerAlpha_char _ hb]
    split <;> omega

theorem pre_upper_lower (o : Options) (hu : o.upper = true) (hl : o.lower = true)
    (hs : CharString o.replace_args) (c : Int) (hc : -128 ≤ c ∧ c ≤ 127) :
    pre o c = pre { o with upper := false } c := by
  have hb := before_case_range o hs c hc
  unfold pre
  simp only [hu, hl, if_true, Bool.false_eq_true, if_false]
  rw [toLowerAlpha_char _ (toUpperAlpha_range _ hb), toUpperAlpha_char _ hb,
    toLowerAlpha_char _ hb]
  split_ifs <;> omega

theorem emit_writes (r p : Int) (g : Globals) :
    ∃ ws, (emit r p g).2.stdout = g.stdout ++ ws ∧ ∀ x, Write.putc x ∈ ws → x = r := by
  unfold emit
  split
  · exact ⟨[Write.putc r], rfl, by simp⟩
  · exact ⟨[], (List.append_nil _).symm, by simp⟩

theorem expandTabsAlpha_writes (c : Int) (a : Option (List Int)) (g : Globals) :
    ∃ ws, (expandTabsAlpha c a g).2.stdout = g.stdout ++ ws ∧
      (∀ x, Write.putc x ∈ ws → x = 32) ∧
      ((expandTabsAlpha c a g).1 = 0 ∨ (expandTabsAlpha c a g).1 = c) := by
  by_cases h : c = 9
  · refine ⟨List.replicate (numSpaces a).toNat (Write.putc 32), by simp [expandTabsAlpha, h],
      ?_, Or.inl (by simp [expandTabsAlpha, h])⟩
    intro x hx
    have := List.eq_of_mem_replicate hx
    injection this
  · exact ⟨[], by simp [expandTabsAlpha, h], by simp, Or.inr (by simp [expandTabsAlpha, h])⟩

/-- What one pass of the loop body writes as characters: spaces for a tab, and
the character left by the character-only stages. -/
theorem iteration_writes (o : Options) (c p : Int) (g : Globals) :
    ∃ ws, (iteration o c p g).2.stdout = g.stdout ++ ws ∧
      ∀ x, Write.putc x ∈ ws → x = 32 ∨ x = pre o c := by
  rw [iteration_eq_afterCount]
  obtain ⟨w₁, hw₁, hp₁⟩ : ∃ ws,
      (if o.line_numbers then countLinesAlpha (pre o c) p g else (pre o c, g)).2.stdout
        = g.stdout ++ ws ∧ ∀ x, Write.putc x ∉ ws := by
    by_cases hn : o.line_numbers = true
    · by_cases h : pre o c ≠ 0 ∧ (g.line_count = 0 ∨ p = 10 ∨ g.begin_of_file = true)
      · exact ⟨[Write.printf_6i (g.line_count + 1), Write.printf_2sp], by
          simp only [hn, if_true]; rw [countLinesAlpha, if_pos h], by simp⟩
      · exact ⟨[], by simp only [hn, if_true]; rw [countLinesAlpha, if_neg h, List.append_nil],
          by simp⟩
    · exact ⟨[], by simp [hn], by simp⟩
  have h1 : (if o.line_numbers then countLinesAlpha (pre o c) p g else (pre o c, g)).1
      = pre o c := by
    by_cases hn : o.line_numbers = true
    · simp only [hn, if_true]; unfold countLinesAlpha; split <;> rfl
    · simp [hn]
  rw [h1]
  generalize (if o.line_numbers then countLinesAlpha (pre o c) p g else (pre o c, g)).2 = g₁
    at hw₁ ⊢
  have hr : (if o.blank_lines then removeBlankLinesAlpha (pre o c) p else pre o c) = 0 ∨
      (if o.blank_lines then removeBlankLinesAlpha (pre o c) p else pre o c) = pre o c := by
    unfold removeBlankLinesAlpha
    split_ifs <;> simp
  unfold afterCount
  simp only []
  generalize (if o.blank_lines then removeBlankLinesAlpha (pre o c) p else pre o c) = r at hr ⊢
  by_cases ht : o.tabs = true
  · simp only [ht, if_true]
    obtain ⟨w₂, hw₂, hp₂, hv⟩ := expandTabsAlpha_writes r o.tabs_args g₁
    obtain ⟨w₃, hw₃, hp₃⟩ := emit_writes (expandTabsAlpha r o.tabs_args g₁).1
      (if (expandTabsAlpha r o.tabs_args g₁).1 = 0 then 0 else p)
      (expandTabsAlpha r o.tabs_args g₁).2
    refine ⟨w₁ ++ w₂ ++ w₃, by rw [hw₃, hw₂, hw₁]; simp, ?_⟩
    intro x hx
    rcases List.mem_append.1 hx with hx | hx
    · rcases List.mem_append.1 hx with hx | hx
      · exact absurd hx (hp₁ x)
      · exact Or.inl (hp₂ x hx)
    · have hxr := hp₃ x hx
      by_cases hz : (expandTabsAlpha r o.tabs_args g₁).1 = 0
      · exfalso
        rw [hz] at hp₃
        have hemit : (emit 0 (if (0 : Int) = 0 then 0 else p) (expandTabsAlpha r o.tabs_args g₁).2).2.stdout
            = (expandTabsAlpha r o.tabs_args g₁).2.stdout := by simp [emit]
        rw [hz, hemit] at hw₃
        have : w₃ = [] := by simpa using hw₃
        rw [this] at hx
        cases hx
      · rcases hv with hv | hv
        · exact absurd hv hz
        · rw [hv] at hxr
          rcases hr with hr | hr
          · rw [hv] at hz; exact absurd hr hz
          · exact Or.inr (hxr.trans hr)
  · simp only [ht, Bool.false_eq_true, if_false]
    obtain ⟨w₃, hw₃, hp₃⟩ := emit_writes r p g₁
    refine ⟨w₁ ++ w₃, by rw [hw₃, hw₁]; simp, ?_⟩
    intro x hx
    rcases List.mem_append.1 hx with hx | hx
    · exact absurd hx (hp₁ x)
    · have hxr := hp₃ x hx
      rcases hr with hr | hr
      · exfalso
        rw [hr] at hw₃
        have hemit : (emit 0 p g₁).2.stdout = g₁.stdout := by simp [emit]
        rw [hemit] at hw₃
        have : w₃ = [] := by simpa using hw₃
        rw [this] at hx
        cases hx
      · exact Or.inr (hxr.trans hr)

theorem iteration_congr_at (o₁ o₂ : Options) (c : Int) (hpre : pre o₁ c = pre o₂ c)
    (hn : o₁.line_numbers = o₂.line_numbers) (hb : o₁.blank_lines = o₂.blank_lines)
    (ht : o₁.tabs = o₂.tabs) (ha : o₁.tabs_args = o₂.tabs_args) (p : Int) (g : Globals) :
    iteration o₁ c p g = iteration o₂ c p g := by
  unfold iteration
  rw [stages_eq, stages_eq, hpre, hn, hb, ht, ha]

theorem feed_noUpperPutc (o : Options) (hl : o.lower = true) (hs : CharString o.replace_args)
    (cs : List Int) (hcs : ∀ c ∈ cs, -128 ≤ c ∧ c ≤ 127) :
    ∀ (p : Int) (g : Globals),
      ∃ seg, (feed o (p, g) cs).2.stdout = g.stdout ++ seg ∧ NoUpperPutc seg := by
  induction cs with
  | nil => intro p g; exact ⟨[], (List.append_nil _).symm, fun c hc => by cases hc⟩
  | cons c cs ih =>
    intro p g
    have hstep : feed o (p, g) (c :: cs)
        = feed o ((iteration o c p g).1, (iteration o c p g).2) cs := rfl
    obtain ⟨w₁, hw₁, hp₁⟩ := iteration_writes o c p g
    obtain ⟨w₂, hw₂, hp₂⟩ := ih (fun d hd => hcs d (List.mem_cons_of_mem _ hd))
      (iteration o c p g).1 (iteration o c p g).2
    refine ⟨w₁ ++ w₂, by rw [hstep, hw₂, hw₁, List.append_assoc], ?_⟩
    intro x hx
    rcases List.mem_append.1 hx with hx | hx
    · rcases hp₁ x hx with rfl | rfl
      · decide
      · exact pre_lower_not_upper o hl hs c (hcs c (List.mem_cons_self _ _))
    · exact hp₂ x hx

/-- C17: with to-uppercase and to-lowercase both enabled, `filter` does on every input what it
does with to-uppercase turned off (to-uppercase runs first, to-lowercase undoes it), whatever
the other options; and no upper-case letter is written as a character. -/
theorem lower_wins_over_upper (o : Options) (g : Globals) (file : List Byte)
    (hu : o.upper = true) (hl : o.lower = true) (hs : CharString o.replace_args) :
    filter o g file = filter { o with upper := false } g file ∧
    ∃ seg, (filter o g file).stdout = g.stdout ++ seg ∧ NoUpperPutc seg := by
  constructor
  · apply filter_congr_on
    intro c hc p g
    exact iteration_congr_at o { o with upper := false } c
      (pre_upper_lower o hu hl hs c (chars_range file c hc)) rfl rfl rfl rfl p g
  · rw [filter_eq_feed]
    exact feed_noUpperPutc o hl hs _ (chars_range file) 0 { g with begin_of_file := true }

/-- Witness for `lower_wins_over_upper`: both case options on "aB\n". -/
theorem lower_wins_over_upper_witness :
    (filter { upper := true, lower := true } {} [97, 66, 10]
        = filter { ({ upper := true, lower := true } : Options) with upper := false } {}
            [97, 66, 10] ∧
      ∃ seg, (filter { upper := true, lower := true } {} [97, 66, 10]).stdout
          = ({} : Globals).stdout ++ seg ∧ NoUpperPutc seg) ∧
    output { upper := true, lower := true } [97, 66, 10] = [97, 98, 10] :=
  ⟨lower_wins_over_upper { upper := true, lower := true } {} [97, 66, 10] rfl rfl
    (fun c hc => by cases hc), by decide⟩

/-! ## C18: replace runs before case conversion -/

/-- Replace before to-uppercase, on inputs free of 0xFF: with only replace=XY and to-uppercase
enabled (X, Y not NUL), every byte equal to X is written as upper-case Y, every other byte
other than NUL as its own upper case (a byte that differs from X by case only is not
replaced), and NUL bytes are dropped. -/
theorem replace_then_upper_of_no_FF (X Y : Int) (tl : List Int) (g : Globals)
    (file : List Byte) (hX : X ≠ 0) (hY : Y ≠ 0) (hYr : -128 ≤ Y ∧ Y ≤ 127)
    (hfile : ∀ b ∈ file, b ≠ 255) :
    bytes (filter { replace := true, replace_args := X :: Y :: tl, upper := true } g file).stdout
      = bytes g.stdout ++ file.flatMap fun b =>
          if b = 0 then []
          else [if toChar (b.val : Int) = X then toUChar (toUpperAlpha Y) else upperByte b] := by
  have h0X : (0 : Int) ≠ X := fun h => hX h.symm
  have hU0 : toUpperAlpha 0 = 0 := by decide
  have hnz : ∀ y : Int, -128 ≤ y ∧ y ≤ 127 → y ≠ 0 → toUpperAlpha y ≠ 0 := by
    intro y hy hy0
    rw [toUpperAlpha_char y hy]
    split <;> omega
  apply output_of_charwise _ rfl rfl
  · simp [charWrites, pre, replaceAlpha, cstr, h0X, hU0]
  · intro b hb
    refine ⟨hfile b hb, ?_⟩
    by_cases hb0 : b = 0
    · subst hb0
      have h00 : toChar 0 = 0 := by decide
      simp [charWrites, pre, replaceAlpha, cstr, h00, h0X, hU0, bytes_nil]
    · have hc0 : toChar (b.val : Int) ≠ 0 := by rw [Ne, toChar_eq_zero]; exact hb0
      by_cases hx : toChar (b.val : Int) = X
      · have := hnz Y hYr hY
        simp [charWrites, pre, replaceAlpha, cstr, hx, this, hb0, bytes, Write.bytes]
      · have := hnz _ (toChar_range b) hc0
        simp [charWrites, pre, replaceAlpha, cstr, hx, this, hb0, bytes, Write.bytes, upperByte]

/-- C18 (failing input): with replace 'a'->'b' and to-uppercase enabled, "aA" yields "BA" (the
match is made on the raw character, the case stage sees the substitute), but on the input
"a\xFFa" only the first 'a' is written, as 'B': the run is cut at the byte 0xFF and the
second occurrence of 'a' is never written. -/
theorem replace_then_upper_stops_at_FF :
    output { replace := true, replace_args := [97, 98], upper := true } [97, 65] = [66, 65] ∧
    output { replace := true, replace_args := [97, 98], upper := true } [97, 255, 97] = [66] := by
  decide

/-! ## C19: the call of the line-numbering step before the read loop -/

/-- C19 (failing input): with line numbering enabled and the empty input, nothing is written
and the counter stays at 0, where the first prefix "     1  " is expected: the call of
`countLinesAlpha` before the read loop writes nothing, whatever the state, because the
character it is given is the initial `reader = 0`. -/
theorem pre_loop_call_does_not_fire :
    (∀ g : Globals, countLinesAlpha 0 0 g = (0, g)) ∧
    filter { line_numbers := true } {} []
      = { line_count := 0, begin_of_file := true, stdout := [] } ∧
    output { line_numbers := true } [] = [] ∧
    output { line_numbers := true } [] ≠ fmt6i 1 ++ [32, 32] ∧
    filterOn { line_numbers := true } 2 {} { unread := [] }
      = some { line_count := 0, begin_of_file := true, stdout := [] } := by
  refine ⟨fun g => countLinesAlpha_zero 0 g, by decide, by decide, by decide, by decide⟩

/-- The call before the read loop, in general: with line numbering enabled it never fires,
for any input, so `filter` is the read loop entered with `reader = 0`.  The first prefix is
written when the first character that survives the delete and replace stages is processed:
whatever is written for the input begins with that prefix, something is written as soon as a
byte read survives, and on the empty input nothing is written and the counter is unchanged. -/
theorem pre_loop_call_never_fires (o : Options) (g : Globals) (file : List Byte)
    (hn : o.line_numbers = true) :
    countLinesAlpha 0 0 { g with begin_of_file := true }
      = (0, { g with begin_of_file := true }) ∧
    filter o g file = filterLoop o 0 0 { g with begin_of_file := true } file ∧
    (∃ seg, (filter o g file).stdout = g.stdout ++ seg ∧
      (seg = [] ∨ ∃ rest,
        seg = Write.printf_6i (g.line_count + 1) :: Write.printf_2sp :: rest) ∧
      ((∃ b ∈ file.takeWhile (fun b => decide (b ≠ 255)), pre o (toChar (b.val : Int)) ≠ 0) →
        seg ≠ [])) ∧
    (pre o 0 = 0 → filter o g [] = { g with begin_of_file := true }) := by
  refine ⟨countLinesAlpha_zero 0 _, ?_, filter_prefixFirst o hn g file, ?_⟩
  · unfold filter
    simp only [countLinesAlpha_zero, ite_self]
  · intro h0
    have hz := (iteration_begin_of_file o hn 0 0 { g with begin_of_file := true } rfl).1 h0
    unfold filter
    simp only [countLinesAlpha_zero, ite_self]
    rw [filterLoop, if_neg (by decide)]
    exact hz

/-! ## C20: the byte 0xFF is taken for end-of-stream -/

/-- C20: with `char` signed and `EOF = -1`, for every option set and every input containing a
byte 0xFF, `filter` stops at the first such byte: what it does is what it does on the part of
the input before that byte, so nothing from that byte on is written; the same holds for the
loop run statement by statement. -/
theorem byte_FF_ends_the_run (o : Options) (g : Globals) (before after : List Byte)
    (fuel : Nat) (hfirst : ∀ b ∈ before, b ≠ 255)
    (hfuel : (before ++ 255 :: after).length + 2 ≤ fuel) :
    toChar (((255 : Byte).val : Nat) : Int) = EOF ∧
    filter o g (before ++ 255 :: after) = filter o g before ∧
    bytes (filter o g (before ++ 255 :: after)).stdout = bytes (filter o g before).stdout ∧
    filterOn o fuel g { unread := before ++ 255 :: after } = some (filter o g before) := by
  have htw : (before ++ 255 :: after).takeWhile (fun b => decide (b ≠ 255)) = before := by
    clear hfuel
    induction before with
    | nil => simp [List.takeWhile]
    | cons x xs ih =>
      have hx : x ≠ 255 := hfirst x (List.mem_cons_self _ _)
      rw [List.cons_append, List.takeWhile_cons, if_pos (by simpa using hx),
        ih fun y hy => hfirst y (List.mem_cons_of_mem _ hy)]
  have hrun : filter o g (before ++ 255 :: after) = filter o g before := by
    rw [← filter_takeWhile o g (before ++ 255 :: after), htw]
  refine ⟨by decide, hrun, by rw [hrun], ?_⟩
  rw [← hrun]
  unfold filterOn filter
  exact whileLoop_eq_filterLoop o _ fuel _ _ _ hfuel

/-- Witness for `byte_FF_ends_the_run`: no option, the input "a\xFFb". -/
theorem byte_FF_ends_the_run_witness :
    (toChar (((255 : Byte).val : Nat) : Int) = EOF ∧
      filter {} {} ([97] ++ 255 :: [98]) = filter {} {} [97] ∧
      bytes (filter {} {} ([97] ++ 255 :: [98])).stdout = bytes (filter {} {} [97]).stdout ∧
      filterOn {} 5 {} { unread := [97] ++ 255 :: [98] } = some (filter {} {} [97])) ∧
    output {} ([97] ++ 255 :: [98]) = [97] :=
  ⟨byte_FF_ends_the_run {} {} [97] [98] 5 (by simp) (by decide), by decide⟩

end Filter
